import Mathlib

/-!
# Verification of the Chess_Engine_Arena core against its specification

Shallow embedding of the repository's Python sources (`board.py`, `elo.py`,
`tournament.py`, `opening_book.py`) in Lean 4, together with theorems settling
the frozen claims C1..C10.

Conventions of the embedding:
* Python `str` cells / one-character strings are modelled as `Char`.
* Python `int` coordinates are modelled as `Int` (Python arithmetic may pass
  through negative intermediate values, always guarded by `valid`).
* Python `dict` (insertion ordered) is modelled as an association list.
* Python `list` is `List`; in-place mutation becomes functional update.
* Unbounded `while` walks along board rays are modelled with a fuel of 8
  (a ray on an 8x8 board advances at least one row or column per step, so at
  most 8 iterations are reachable; beyond that `valid` fails).
* `random.*` calls are modelled as explicit choice parameters.
-/

namespace Chess

/-- Modelled from the spec: `utils.valid` (module `utils` is not part of the
sources given); the spec fixes the board as an 8x8 grid with row/column
indices 0..7, so `valid r c` is the bounds check used before every raw
grid access in `board.py`. -/
def valid (r c : Int) : Bool :=
  0 ≤ r && r < 8 && 0 ≤ c && c < 8

/-- The board grid: 8 rows of 8 cells; a cell is `'.'` or a piece character. -/
abbrev Grid := List (List Char)

/-- Raw cell read `self.board[r][c]`; in the source every such read is guarded
by `valid`, so the default `'.'` for out-of-range indices is never observed. -/
def cellAt (g : Grid) (r c : Int) : Char :=
  (g.getD r.toNat []).getD c.toNat '.'

/-- Raw cell write `self.board[r][c] = v` (functional update). -/
def setCell (g : Grid) (r c : Int) (v : Char) : Grid :=
  g.set r.toNat ((g.getD r.toNat []).set c.toNat v)

/-- `Board.is_w`: a white piece (uppercase, not an empty cell). -/
def isW (p : Char) : Bool := p ≠ '.' && p.isUpper

/-- `Board.is_b`: a black piece (lowercase, not an empty cell). -/
def isB (p : Char) : Bool := p ≠ '.' && p.isLower

/-- `Board.same`: both cells hold pieces of the same colour. -/
def same (p1 p2 : Char) : Bool :=
  (isW p1 && isW p2) || (isB p1 && isB p2)

/-- `Board.enemy`: the cell holds a piece of the side opposite to `turn`. -/
def enemy (p : Char) (turn : Char) : Bool :=
  if turn = 'w' then isB p else isW p

/-- The opposite side (`'b' if t == 'w' else 'w'`). -/
def opp (t : Char) : Char := if t = 'w' then 'b' else 'w'

/-- `constants.ROOK_D`. -/
def ROOK_D : List (Int × Int) := [(1, 0), (-1, 0), (0, 1), (0, -1)]

/-- `constants.BISHOP_D`. -/
def BISHOP_D : List (Int × Int) := [(1, 1), (1, -1), (-1, 1), (-1, -1)]

/-- `constants.QUEEN_D = ROOK_D + BISHOP_D`. -/
def QUEEN_D : List (Int × Int) := ROOK_D ++ BISHOP_D

/-- `constants.KNIGHT_D`. -/
def KNIGHT_D : List (Int × Int) :=
  [(2, 1), (2, -1), (-2, 1), (-2, -1), (1, 2), (1, -2), (-1, 2), (-1, -2)]

/-- `constants.KING_D = ROOK_D + BISHOP_D`. -/
def KING_D : List (Int × Int) := ROOK_D ++ BISHOP_D

/-- `Board.find_king`: first square (row-major scan) holding this side's king. -/
def findKing (g : Grid) (turn : Char) : Option (Int × Int) :=
  let k := if turn = 'w' then 'K' else 'k'
  (List.range 8).findSome? fun r =>
    (List.range 8).findSome? fun c =>
      if cellAt g r c = k then some ((r : Int), (c : Int)) else none

/-- The sliding-piece scan inside `Board.is_attacked`: walk from `(nr, nc)` in
direction `(dr, dc)` until a blocker or the edge; report whether the first
blocker is an attacker whose lowered letter is in `chars`.  The `while` loop of
the source is bounded by the fuel 8 (each step changes a coordinate by at
least one, so after 8 steps `valid` must fail). -/
def slideHit (g : Grid) (has : Char → Bool) (chars : List Char) :
    Nat → Int → Int → Int → Int → Bool
  | 0, _, _, _, _ => false
  | fuel + 1, nr, nc, dr, dc =>
    if valid nr nc then
      let p := cellAt g nr nc
      if p ≠ '.' then p.toLower ∈ chars && has p
      else slideHit g has chars fuel (nr + dr) (nc + dc) dr dc
    else false

/-- `Board.is_attacked`: square `(r, c)` is attacked by side `by_`.
The method reads only `self.board`, so it is embedded as a function of the
grid. -/
def isAttacked (g : Grid) (r c : Int) (by_ : Char) : Bool :=
  let has : Char → Bool := fun p => if by_ = 'w' then isW p else isB p
  -- Knights
  (KNIGHT_D.any fun d =>
    let nr := r + d.1
    let nc := c + d.2
    valid nr nc && (cellAt g nr nc).toLower = 'n' && has (cellAt g nr nc)) ||
  -- Sliding pieces
  ([(ROOK_D, ['q', 'r']), (BISHOP_D, ['q', 'b'])].any fun dc =>
    dc.1.any fun d => slideHit g has dc.2 8 (r + d.1) (c + d.2) d.1 d.2) ||
  -- King
  (KING_D.any fun d =>
    let nr := r + d.1
    let nc := c + d.2
    valid nr nc && (cellAt g nr nc).toLower = 'k' && has (cellAt g nr nc)) ||
  -- Pawns
  ((if by_ = 'w' then [((1 : Int), (-1 : Int)), (1, 1)] else [(-1, -1), (-1, 1)]).any
    fun d =>
      let nr := r + d.1
      let nc := c + d.2
      valid nr nc && (cellAt g nr nc).toLower = 'p' && has (cellAt g nr nc))

/-- A generated move `(fr, fc, tr, tc, promo)`; `promo` is `None` or one of
the lowercase letters `q r b n`. -/
structure Move where
  fr : Int
  fc : Int
  tr : Int
  tc : Int
  promo : Option Char
deriving DecidableEq, Repr

/-- Column index encoded by an en-passant square string (`ord(ep[0]) - ord('a')`). -/
def epCol (ep : String) : Int :=
  ((ep.data.getD 0 ' ').toNat : Int) - 97

/-- Row index encoded by an en-passant square string (`8 - int(ep[1])`). -/
def epRow (ep : String) : Int :=
  8 - (((ep.data.getD 1 ' ').toNat : Int) - 48)

/-- The sliding-piece collector inside `Board._pseudo` (fuel-bounded walk, as
in `slideHit`). -/
def slideMoves (g : Grid) (turn : Char) (r c : Int) :
    Nat → Int → Int → Int → Int → List Move
  | 0, _, _, _, _ => []
  | fuel + 1, nr, nc, dr, dc =>
    if valid nr nc then
      let t2 := cellAt g nr nc
      if t2 = '.' then
        ⟨r, c, nr, nc, none⟩ :: slideMoves g turn r c fuel (nr + dr) (nc + dc) dr dc
      else if enemy t2 turn then [⟨r, c, nr, nc, none⟩]
      else []
    else []

/-- The pawn block of `Board._pseudo` (forward pushes, promotions, captures
and en-passant captures). -/
def pawnMoves (g : Grid) (ep : String) (turn : Char) (r c : Int) : List Move :=
  let fwd : Int := if turn = 'w' then -1 else 1
  let startR : Int := if turn = 'w' then 6 else 1
  let promoR : Int := if turn = 'w' then 0 else 7
  let nr := r + fwd
  let fwdMoves :=
    if valid nr c && cellAt g nr c = '.' then
      if nr = promoR then
        [Move.mk r c nr c (some 'q'), ⟨r, c, nr, c, some 'r'⟩,
         ⟨r, c, nr, c, some 'b'⟩, ⟨r, c, nr, c, some 'n'⟩]
      else
        ⟨r, c, nr, c, none⟩ ::
          (if r = startR && cellAt g (r + 2 * fwd) c = '.' then
            [Move.mk r c (r + 2 * fwd) c none]
          else [])
    else []
  let capMoves :=
    [(-1 : Int), 1].flatMap fun dc =>
      let nc := c + dc
      let nr := r + fwd
      if valid nr nc then
        let tgt := cellAt g nr nc
        let isCap := enemy tgt turn
        let isEp := ep ≠ "-" && nr = epRow ep && nc = epCol ep
        if isCap || isEp then
          if nr = promoR then
            [Move.mk r c nr nc (some 'q'), ⟨r, c, nr, nc, some 'r'⟩,
             ⟨r, c, nr, nc, some 'b'⟩, ⟨r, c, nr, nc, some 'n'⟩]
          else [Move.mk r c nr nc none]
        else []
      else []
  fwdMoves ++ capMoves

/-- The knight block of `Board._pseudo`. -/
def knightMoves (g : Grid) (piece : Char) (r c : Int) : List Move :=
  KNIGHT_D.filterMap fun d =>
    let nr := r + d.1
    let nc := c + d.2
    if valid nr nc && !same piece (cellAt g nr nc) then
      some ⟨r, c, nr, nc, none⟩
    else none

/-- The sliding-piece block of `Board._pseudo` (bishop/rook/queen). -/
def sliderMoves (g : Grid) (p : Char) (turn : Char) (r c : Int) : List Move :=
  let dirs := if p = 'b' then BISHOP_D else if p = 'r' then ROOK_D else QUEEN_D
  dirs.flatMap fun d => slideMoves g turn r c 8 (r + d.1) (c + d.2) d.1 d.2

/-- The king block of `Board._pseudo` (one-step moves and castling). -/
def kingMoves (g : Grid) (castling : String) (piece turn : Char) (r c : Int) :
    List Move :=
  let oneStep :=
    KING_D.filterMap fun d =>
      let nr := r + d.1
      let nc := c + d.2
      if valid nr nc && !same piece (cellAt g nr nc) then
        some (Move.mk r c nr nc none)
      else none
  let o := opp turn
  let kr : Int := if turn = 'w' then 7 else 0
  let kc : Int := 4
  let castleMoves :=
    if r = kr && c = kc && !isAttacked g kr kc o then
      let ks := if turn = 'w' then 'K' else 'k'
      let qs := if turn = 'w' then 'Q' else 'q'
      let rp := if turn = 'w' then 'R' else 'r'
      let cas := if castling = "" then "" else castling
      (if cas.data.contains ks && cellAt g kr 5 = '.' && cellAt g kr 6 = '.' &&
          cellAt g kr 7 = rp && !isAttacked g kr 5 o && !isAttacked g kr 6 o then
        [Move.mk r c kr (kc + 2) none]
      else []) ++
      (if cas.data.contains qs && cellAt g kr 3 = '.' && cellAt g kr 2 = '.' &&
          cellAt g kr 1 = '.' && cellAt g kr 0 = rp &&
          !isAttacked g kr 3 o && !isAttacked g kr 2 o then
        [Move.mk r c kr (kc - 2) none]
      else [])
    else []
  oneStep ++ castleMoves

/-- `Board._pseudo`: pseudo-legal moves for the piece on `(r, c)`.  The method
reads `self.board`, `self.ep` and `self.castling` (and `self.is_attacked`,
which reads only the board), so it is embedded as a function of those three
fields; its per-piece blocks are the named definitions above. -/
def pseudoMoves (g : Grid) (ep : String) (castling : String) (r c : Int) :
    List Move :=
  let piece := cellAt g r c
  if piece = '.' then []
  else
    let p := piece.toLower
    let turn := if piece.isUpper then 'w' else 'b'
    if p = 'p' then pawnMoves g ep turn r c
    else if p = 'n' then knightMoves g piece r c
    else if p = 'b' || p = 'r' || p = 'q' then sliderMoves g p turn r c
    else if p = 'k' then kingMoves g castling piece turn r c
    else []

/-- The full state of `Board` (the `_material_cache` performance field and the
methods not needed by the claims are omitted). -/
structure Board where
  board : Grid
  turn : Char
  castling : String
  ep : String
  halfmove : Nat
  fullmove : Nat
  move_history : List (String × String × String)
  pos_history : List (String × Nat)
  cap_white : List Char
  cap_black : List Char
deriving DecidableEq, Repr

/-- `Board.in_check(t)` with an explicit side. -/
def inCheckT (b : Board) (t : Char) : Bool :=
  match findKing b.board t with
  | none => false
  | some k => isAttacked b.board k.1 k.2 (opp t)

/-- `Board.in_check()` for the side to move. -/
def inCheck (b : Board) : Bool := inCheckT b b.turn

/-- The file letter `chr(ord('a') + c)`. -/
def fileChar (c : Int) : Char := Char.ofNat (97 + c).toNat

/-- The rank digit of row `r`, i.e. the single-character rendering of
`8 - r` for a row index in 0..7. -/
def rankChar (r : Int) : Char := Char.ofNat (48 + (8 - r)).toNat

/-- `Board._apply_raw`: apply a move, returning a new board with empty
histories. -/
def applyRaw (b : Board) (mv : Move) : Board :=
  let fr := mv.fr
  let fc := mv.fc
  let tr := mv.tr
  let tc := mv.tc
  let g0 := b.board
  let piece := cellAt g0 fr fc
  let target := cellAt g0 tr tc
  let p := piece.toLower
  let turn := b.turn
  -- En-passant capture
  let g1 :=
    if p = 'p' && b.ep ≠ "-" && tr = epRow b.ep && tc = epCol b.ep then
      setCell g0 fr (epCol b.ep) '.'
    else g0
  -- Castling: move rook
  let g2 :=
    if p = 'k' && fc = 4 && tc = 6 then
      setCell (setCell g1 fr 7 '.') fr 5 (if turn = 'w' then 'R' else 'r')
    else if p = 'k' && fc = 4 && tc = 2 then
      setCell (setCell g1 fr 0 '.') fr 3 (if turn = 'w' then 'R' else 'r')
    else g1
  let g3 := setCell (setCell g2 tr tc piece) fr fc '.'
  -- Promotion
  let g4 :=
    match mv.promo with
    | some pp => setCell g3 tr tc (if turn = 'w' then pp.toUpper else pp.toLower)
    | none =>
      if p = 'p' && (tr = 0 || tr = 7) then
        setCell g3 tr tc (if turn = 'w' then 'Q' else 'q')
      else g3
  -- En-passant square for next move
  let ep' :=
    if p = 'p' && (fr - tr = 2 || tr - fr = 2) then
      String.mk [fileChar fc, rankChar ((fr + tr) / 2)]
    else "-"
  -- Update castling rights
  let cas0 := (if b.castling = "" then "" else b.castling).data.filter (· ≠ '-')
  let cas1 :=
    if p = 'k' then
      cas0.filter fun x => !(if turn = 'w' then ['K', 'Q'] else ['k', 'q']).contains x
    else cas0
  let pairs : List (Int × Int × Char) := [(7, 7, 'K'), (7, 0, 'Q'), (0, 7, 'k'), (0, 0, 'q')]
  let cas2 :=
    if p = 'r' then
      pairs.foldl
        (fun cs q => if fr = q.1 && fc = q.2.1 && cs.contains q.2.2 then
          cs.erase q.2.2 else cs) cas1
    else cas1
  let cas3 :=
    pairs.foldl
      (fun cs q => if tr = q.1 && tc = q.2.1 && cs.contains q.2.2 then
        cs.erase q.2.2 else cs) cas2
  { board := g4
    turn := if turn = 'w' then 'b' else 'w'
    castling := if cas3 = [] then "-" else String.mk cas3
    ep := ep'
    halfmove := if p = 'p' || target ≠ '.' then 0 else b.halfmove + 1
    fullmove := if turn = 'b' then b.fullmove + 1 else b.fullmove
    move_history := []
    pos_history := []
    cap_white := []
    cap_black := [] }

/-- `Board.legal_moves(t)` with an explicit side: all strictly legal moves. -/
def legalMovesT (b : Board) (t : Char) : List Move :=
  (List.range 8).flatMap fun r =>
    (List.range 8).flatMap fun c =>
      let p := cellAt b.board r c
      if p = '.' then []
      else if (t = 'w') ≠ (p.isUpper = true) then []
      else
        (pseudoMoves b.board b.ep b.castling r c).filter fun mv =>
          !inCheckT (applyRaw b mv) t

/-- `Board.legal_moves()` for the side to move. -/
def legalMoves (b : Board) : List Move := legalMovesT b b.turn


end Chess

namespace Chess

/-- One row of `Board.to_fen`: run-length encode empty cells (`e` is the
pending count of empties, as in the source's accumulator). -/
def encodeRowAux : List Char → Nat → List Char
  | [], e => if e ≠ 0 then (toString e).data else []
  | cell :: rest, e =>
    if cell = '.' then encodeRowAux rest (e + 1)
    else (if e ≠ 0 then (toString e).data else []) ++ cell :: encodeRowAux rest 0

/-- Run-length encoding of one board row, as in `Board.to_fen`. -/
def encodeRow (row : List Char) : List Char := encodeRowAux row 0

/-- Python `sep.join(...)` on character lists. -/
def joinSep (sep : Char) : List (List Char) → List Char
  | [] => []
  | [x] => x
  | x :: xs => x ++ sep :: joinSep sep xs

/-- The piece-placement field of `Board.to_fen`: `'/'.join(rows)`. -/
def boardField (g : Grid) : List Char := joinSep '/' (g.map encodeRow)

/-- `Board.to_fen`: the six space-separated FEN fields. -/
def toFen (b : Board) : String :=
  String.mk (joinSep ' '
    [boardField b.board, [b.turn], (if b.castling = "" then "-" else b.castling).data,
     b.ep.data, (toString b.halfmove).data, (toString b.fullmove).data])

/-- Python `str.split()` (no arguments): split on runs of whitespace, dropping
empty tokens.  The strings split in this code contain `' '` as their only
whitespace.  `tok` is the current token accumulated in reverse. -/
def wsSplitGo : List Char → List Char → List (List Char)
  | [], tok => if tok = [] then [] else [tok.reverse]
  | c :: cs, tok =>
    if c = ' ' then
      if tok = [] then wsSplitGo cs [] else tok.reverse :: wsSplitGo cs []
    else wsSplitGo cs (c :: tok)

/-- Python `str.split()` on the character list of a string. -/
def wsSplit (s : List Char) : List (List Char) := wsSplitGo s []

/-- `Board._pos_key`: the first four space-separated fields of the FEN
(pieces + turn + castling + ep), rejoined with single spaces. -/
def posKey (b : Board) : String :=
  String.mk (joinSep ' ' ((wsSplit (toFen b).data).take 4))

/-- Python `dict.get(k, default)` on the insertion-ordered association list
(first matching key wins; keys are unique by construction of `dSet`). -/
def dGet (d : List (String × Nat)) (k : String) (dflt : Nat) : Nat :=
  match d with
  | [] => dflt
  | kv :: rest => if kv.1 = k then kv.2 else dGet rest k dflt

/-- Python `d[k] = v`: overwrite in place if present, else append. -/
def dSet (d : List (String × Nat)) (k : String) (v : Nat) : List (String × Nat) :=
  match d with
  | [] => [(k, v)]
  | kv :: rest => if kv.1 = k then (k, v) :: rest else kv :: dSet rest k v

/-- `Board._insufficient`: the board scan collecting lowered non-king piece
letters per side (the source appends `p.lower()` to `ws` or `bs` while
scanning row-major, then drops the kings). -/
def pieceScan (g : Grid) : List Char :=
  (List.range 8).flatMap fun r =>
    (List.range 8).flatMap fun c =>
      let p := cellAt g r c
      if p = '.' then [] else [p]

/-- White's lowered non-king pieces in scan order (`ws` in `_insufficient`). -/
def wsPieces (g : Grid) : List Char :=
  (((pieceScan g).filter (fun p => p.isUpper)).map Char.toLower).filter (· ≠ 'k')

/-- Black's lowered non-king pieces in scan order (`bs` in `_insufficient`). -/
def bsPieces (g : Grid) : List Char :=
  (((pieceScan g).filter (fun p => !p.isUpper)).map Char.toLower).filter (· ≠ 'k')

/-- `Board._insufficient`: insufficient mating material. -/
def insufficient (b : Board) : Bool :=
  let ws := wsPieces b.board
  let bs := bsPieces b.board
  if ws = [] && bs = [] then true
  else if ws = [] && (bs = ['b'] || bs = ['n']) then true
  else if bs = [] && (ws = ['b'] || ws = ['n']) then true
  else false

/-- The result quadruple of `Board.game_result`:
`(over, result, reason, winner)`. -/
abbrev GameResult := Bool × String × String × Option String

/-- `Board.game_result`: termination detection, in the source's order. -/
def gameResult (b : Board) : GameResult :=
  let legal := legalMoves b
  if legal = [] then
    if inCheck b then
      let winner := if b.turn = 'w' then "black" else "white"
      let result := if b.turn = 'w' then "0-1" else "1-0"
      (true, result, "Checkmate", some winner)
    else (true, "1/2-1/2", "Stalemate", none)
  else if b.halfmove ≥ 100 then (true, "1/2-1/2", "Draw by 50-move rule", none)
  else if dGet b.pos_history (posKey b) 0 ≥ 3 then
    (true, "1/2-1/2", "Draw by threefold repetition", none)
  else if insufficient b then (true, "1/2-1/2", "Draw by insufficient material", none)
  else (false, "", "", none)

/-- The destination-square string `f"{chr(ord('a') + tc)}{8 - tr}"`. -/
def sqStr (tr tc : Int) : String := String.mk [fileChar tc, rankChar tr]

/-- `Board._build_san`: SAN for a move, without check/checkmate suffixes. -/
def buildSAN (b : Board) (mv : Move) (legal : List Move) : String :=
  let piece := cellAt b.board mv.fr mv.fc
  let p := piece.toLower
  let target := cellAt b.board mv.tr mv.tc
  let isCap := target ≠ '.' ||
    (p = 'p' && b.ep ≠ "-" && mv.tc = epCol b.ep && mv.tr = epRow b.ep)
  if p = 'k' && mv.fc = 4 && mv.tc = 6 then "O-O"
  else if p = 'k' && mv.fc = 4 && mv.tc = 2 then "O-O-O"
  else
    let toSq := sqStr mv.tr mv.tc
    if p = 'p' then
      let san := if isCap then String.mk [fileChar mv.fc, 'x'] ++ toSq else toSq
      match mv.promo with
      | some pp => san ++ String.mk ['=', pp.toUpper]
      | none => san
    else
      let pl := p.toUpper
      let ambig := legal.filter fun m =>
        m.tr = mv.tr && m.tc = mv.tc && m.promo = mv.promo &&
        (cellAt b.board m.fr m.fc).toLower = p && !(m.fr = mv.fr && m.fc = mv.fc)
      let dis : String :=
        if ambig ≠ [] then
          let sf := ambig.any fun m => m.fc = mv.fc
          let sr := ambig.any fun m => m.fr = mv.fr
          if !sf then String.mk [fileChar mv.fc]
          else if !sr then String.mk [rankChar mv.fr]
          else String.mk [fileChar mv.fc, rankChar mv.fr]
        else ""
      let cap := if isCap then "x" else ""
      let san := String.mk [pl] ++ dis ++ cap ++ toSq
      match mv.promo with
      | some pp => san ++ String.mk ['=', pp.toUpper]
      | none => san

/-- The outcome of `Board.apply_uci`: the updated board plus the returned
`(san, captured_piece)`; a raised `ValueError` becomes `Except.error` and, the
raise happening before any state write, leaves the board unchanged. -/
abbrev UciOutcome := Except String (Board × String × Option Char)

/-- The decoding prefix of `Board.apply_uci` (its first five lines): the
length check, the coordinate arithmetic on the four square characters —
`int(...)` raising `ValueError` on a non-digit rank character — and the
optional lowered promotion letter. -/
def parseUci (uci : String) : Except String Move :=
  let cs := uci.data
  if cs.length < 4 then .error ("Bad UCI: '" ++ uci ++ "'")
  else if !(cs.getD 1 ' ').isDigit || !(cs.getD 3 ' ').isDigit then
    .error "invalid literal for int()"
  else
    .ok
      { fr := 8 - (((cs.getD 1 ' ').toNat : Int) - 48)
        fc := ((cs.getD 0 ' ').toNat : Int) - 97
        tr := 8 - (((cs.getD 3 ' ').toNat : Int) - 48)
        tc := ((cs.getD 2 ' ').toNat : Int) - 97
        promo := if cs.length > 4 then some ((cs.getD 4 ' ').toLower) else none }

/-- The legality gate of `Board.apply_uci`: accept a legal move as-is, or
complete a promotion-less token into a legal queen promotion; otherwise
reject. -/
def completeMove (legal : List Move) (mv0 : Move) : Option Move :=
  if mv0 ∈ legal then some mv0
  else if mv0.promo = none ∧ { mv0 with promo := some 'q' } ∈ legal then
    some { mv0 with promo := some 'q' }
  else none

/-- The successful tail of `Board.apply_uci`, entered only after the move
passed the legality gate: performs every state write of the method. -/
def applyUciBody (b : Board) (uci : String) (legal : List Move) (mv : Move) :
    Board × String × Option Char :=
  let fr := mv.fr
  let fc := mv.fc
  let tr := mv.tr
  let tc := mv.tc
  let san0 := buildSAN b mv legal
  let piece := cellAt b.board fr fc
  let target := cellAt b.board tr tc
  let p := piece.toLower
  let epRemoved : Option Char :=
    if p = 'p' && b.ep ≠ "-" && tr = epRow b.ep && tc = epCol b.ep then
      some (cellAt b.board fr (epCol b.ep))
    else none
  let nw := applyRaw b mv
  let b1 : Board :=
    { b with
      board := nw.board, castling := nw.castling, ep := nw.ep,
      halfmove := nw.halfmove, fullmove := nw.fullmove, turn := nw.turn }
  let inChk := inCheck b1
  let noMvs := legalMoves b1 = []
  let san := if inChk then san0 ++ (if noMvs then "#" else "+") else san0
  let cap : Option Char :=
    match epRemoved with
    | some x => some x
    | none => if target ≠ '.' then some target else none
  let b2 : Board :=
    match cap with
    | some x =>
      if x ≠ '.' then
        if b1.turn = 'w' then { b1 with cap_white := b1.cap_white ++ [x] }
        else { b1 with cap_black := b1.cap_black ++ [x] }
      else b1
    | none => b1
  let fenAfter := toFen b2
  let b3 : Board := { b2 with move_history := b2.move_history ++ [(uci, san, fenAfter)] }
  let pos := posKey b3
  let b4 : Board := { b3 with pos_history := dSet b3.pos_history pos (dGet b3.pos_history pos 0 + 1) }
  (b4, san, cap)

/-- `Board.apply_uci`: decode the token, pass the legality gate, then run the
state-updating tail; both rejection paths raise before any state write. -/
def applyUci (b : Board) (uci : String) : UciOutcome :=
  match parseUci uci with
  | .error e => .error e
  | .ok mv0 =>
    let legal := legalMoves b
    match completeMove legal mv0 with
    | none => .error ("Illegal move: '" ++ uci ++ "'")
    | some mv => .ok (applyUciBody b uci legal mv)

/-- The caller-visible state transition of `Board.apply_uci` on the mutable
`Board` object: on success the object holds the updated state, on a raised
`ValueError` the object is untouched (every raise in the method precedes
every state write). -/
def applyUciState (b : Board) (uci : String) : Board × UciOutcome :=
  match applyUci b uci with
  | .ok r => (r.1, .ok r)
  | .error e => (b, .error e)

/-- Python `int` on a digit string (used by `_load_fen` for the clocks). -/
def natOfDigits (cs : List Char) : Nat :=
  cs.foldl (fun acc c => acc * 10 + (c.toNat - 48)) 0

/-- Python `str.split('/')` (keeps empty parts, unlike `str.split()`). -/
def slashSplit : List Char → List (List Char)
  | [] => [[]]
  | c :: cs =>
    if c = '/' then [] :: slashSplit cs
    else
      match slashSplit cs with
      | [] => [[c]]
      | t :: ts => (c :: t) :: ts

/-- One row of `Board._load_fen`: digits expand to that many `'.'` cells. -/
def decodeRow (cs : List Char) : List Char :=
  cs.flatMap fun ch =>
    if ch.isDigit then List.replicate (ch.toNat - 48) '.' else [ch]

/-- `Board._load_fen` combined with `Board.__init__`: parse a FEN string into
a fresh board with empty histories (the constructor clears all histories
before loading). -/
def loadFen (fen : String) : Board :=
  let parts := wsSplit fen.data
  { board := (slashSplit (parts.getD 0 [])).map decodeRow
    turn := (parts.getD 1 ['w']).headD 'w'
    castling := String.mk (parts.getD 2 ['-'])
    ep := String.mk (parts.getD 3 ['-'])
    halfmove := natOfDigits (parts.getD 4 ['0'])
    fullmove := natOfDigits (parts.getD 5 ['1'])
    move_history := []
    pos_history := []
    cap_white := []
    cap_black := []
  }

/-- `constants.START_FEN`. -/
def START_FEN : String := "rnbqkbnr/pppppppp/8/8/8/8/PPPPPPPP/RNBQKBNR w KQkq - 0 1"

/-- `Board()` — the freshly constructed starting position. -/
def startBoard : Board := loadFen START_FEN

end Chess

namespace Chess

/-- A play: apply a list of UCI moves in sequence (the match runner's loop of
`apply_uci` calls), stopping at the first rejected move. -/
def applyPlay (b : Board) (ucis : List String) : Except String Board :=
  ucis.foldlM (fun bb u => (applyUci bb u).map (fun r => r.1)) b

/-- The successive board states of a play (one state after each successfully
applied ply; the list is cut short at the first rejected move). -/
def playStates (b : Board) : List String → List Board
  | [] => []
  | u :: us =>
    match applyUci b u with
    | .ok r => r.1 :: playStates r.1 us
    | .error _ => []

/-- Four plies of knight shuffling that return to the starting position. -/
def knightDance : List String := ["g1f3", "g8f6", "f3g1", "f6g8"]

/-- Eight plies of knight shuffling: the starting position is *reached* three
times (before ply 1, after ply 4 and after ply 8). -/
def dance8 : List String := knightDance ++ knightDance

/-- Twelve plies of knight shuffling: the starting position's recorded
position-key count reaches 3 after ply 12. -/
def dance12 : List String := knightDance ++ knightDance ++ knightDance

/-- The concrete board after the twelve-ply knight dance (the explicit value
of `applyPlay startBoard dance12`, checked against the play in the C5 amended
witness). -/
def dance12Board : Board :=
  { board :=
      [['r', 'n', 'b', 'q', 'k', 'b', 'n', 'r'], ['p', 'p', 'p', 'p', 'p', 'p', 'p', 'p'],
       ['.', '.', '.', '.', '.', '.', '.', '.'], ['.', '.', '.', '.', '.', '.', '.', '.'],
       ['.', '.', '.', '.', '.', '.', '.', '.'], ['.', '.', '.', '.', '.', '.', '.', '.'],
       ['P', 'P', 'P', 'P', 'P', 'P', 'P', 'P'], ['R', 'N', 'B', 'Q', 'K', 'B', 'N', 'R']]
    turn := 'w'
    castling := "KQkq"
    ep := "-"
    halfmove := 12
    fullmove := 7
    move_history :=
      [("g1f3", "Nf3", "rnbqkbnr/pppppppp/8/8/8/5N2/PPPPPPPP/RNBQKB1R b KQkq - 1 1"),
       ("g8f6", "Nf6", "rnbqkb1r/pppppppp/5n2/8/8/5N2/PPPPPPPP/RNBQKB1R w KQkq - 2 2"),
       ("f3g1", "Ng1", "rnbqkb1r/pppppppp/5n2/8/8/8/PPPPPPPP/RNBQKBNR b KQkq - 3 2"),
       ("f6g8", "Ng8", "rnbqkbnr/pppppppp/8/8/8/8/PPPPPPPP/RNBQKBNR w KQkq - 4 3"),
       ("g1f3", "Nf3", "rnbqkbnr/pppppppp/8/8/8/5N2/PPPPPPPP/RNBQKB1R b KQkq - 5 3"),
       ("g8f6", "Nf6", "rnbqkb1r/pppppppp/5n2/8/8/5N2/PPPPPPPP/RNBQKB1R w KQkq - 6 4"),
       ("f3g1", "Ng1", "rnbqkb1r/pppppppp/5n2/8/8/8/PPPPPPPP/RNBQKBNR b KQkq - 7 4"),
       ("f6g8", "Ng8", "rnbqkbnr/pppppppp/8/8/8/8/PPPPPPPP/RNBQKBNR w KQkq - 8 5"),
       ("g1f3", "Nf3", "rnbqkbnr/pppppppp/8/8/8/5N2/PPPPPPPP/RNBQKB1R b KQkq - 9 5"),
       ("g8f6", "Nf6", "rnbqkb1r/pppppppp/5n2/8/8/5N2/PPPPPPPP/RNBQKB1R w KQkq - 10 6"),
       ("f3g1", "Ng1", "rnbqkb1r/pppppppp/5n2/8/8/8/PPPPPPPP/RNBQKBNR b KQkq - 11 6"),
       ("f6g8", "Ng8", "rnbqkbnr/pppppppp/8/8/8/8/PPPPPPPP/RNBQKBNR w KQkq - 12 7")]
    pos_history :=
      [("rnbqkbnr/pppppppp/8/8/8/5N2/PPPPPPPP/RNBQKB1R b KQkq -", 3),
       ("rnbqkb1r/pppppppp/5n2/8/8/5N2/PPPPPPPP/RNBQKB1R w KQkq -", 3),
       ("rnbqkb1r/pppppppp/5n2/8/8/8/PPPPPPPP/RNBQKBNR b KQkq -", 3),
       ("rnbqkbnr/pppppppp/8/8/8/8/PPPPPPPP/RNBQKBNR w KQkq -", 3)]
    cap_white := []
    cap_black := [] }

/-- The twelve piece characters. -/
def pieceChars : List Char :=
  ['K', 'Q', 'R', 'B', 'N', 'P', 'k', 'q', 'r', 'b', 'n', 'p']

/-- A valid grid cell: empty or a piece character. -/
def validCell (c : Char) : Bool := c = '.' || decide (c ∈ pieceChars)

/-- A valid board row: 8 valid cells. -/
def validRow (row : List Char) : Bool := row.length = 8 && row.all validCell

/-- A valid en-passant field: `-` or a file/rank square string. -/
def validEp (s : String) : Bool :=
  s = "-" ||
    (s.data.length = 2 && decide ((s.data.getD 0 ' ') ∈ "abcdefgh".data) &&
      decide ((s.data.getD 1 ' ') ∈ "12345678".data))

/-- Well-formedness of every `Board` reachable through `apply_uci`: 8x8 grid
of valid cells, one-character side tag, nonempty castling field over
`KQkq-`, valid en-passant field. -/
def ValidBoard (b : Board) : Bool :=
  b.board.length = 8 && b.board.all validRow &&
    (b.turn = 'w' || b.turn = 'b') &&
    (b.castling ≠ "") && b.castling.data.all (fun c => decide (c ∈ "KQkq-".data)) &&
    validEp b.ep

/-- A bare-kings position (white king e1, black king e8, White to move). -/
def kingsBoard : Board := loadFen "4k3/8/8/8/8/8/8/4K3 w - - 0 1"

/-- King and lone bishop versus bare king. -/
def kbkBoard : Board := loadFen "4k3/8/8/8/8/8/8/2B1K3 w - - 0 1"

/-- King and lone knight versus bare king. -/
def knkBoard : Board := loadFen "4k3/8/8/8/8/8/8/2N1K3 w - - 0 1"

/-- King and pawn versus bare king. -/
def kpkBoard : Board := loadFen "4k3/8/8/8/8/8/8/2P1K3 w - - 0 1"

/-- A stalemate position (Black to move, not in check, no legal moves) whose
halfmove clock and repetition count have also long been exceeded. -/
def staleBoard : Board :=
  let b0 := loadFen "7k/5K2/6Q1/8/8/8/8/8 b - - 150 80"
  { b0 with pos_history := [(posKey b0, 5)] }

/-- A live position whose halfmove clock has reached 100 while its repetition
count is also already 3 and its material insufficient. -/
def fiftyBoard : Board :=
  let b0 := loadFen "4k3/8/8/8/8/8/8/4K3 w - - 100 80"
  { b0 with pos_history := [(posKey b0, 3)] }

-- ───────────── Elo rating computation (src/elo.py) ─────────────

/-- Association-list lookup with `Option` result (Python `dict` read). -/
def dGetQ (d : List (String × ℚ)) (k : String) : Option ℚ :=
  match d with
  | [] => none
  | kv :: rest => if kv.1 = k then some kv.2 else dGetQ rest k

/-- Association-list write (Python `dict` assignment: update in place if the
key exists, else append — Python dicts preserve insertion order). -/
def dSetQ (d : List (String × ℚ)) (k : String) (v : ℚ) : List (String × ℚ) :=
  match d with
  | [] => [(k, v)]
  | kv :: rest => if kv.1 = k then (k, v) :: rest else kv :: dSetQ rest k v

/-- Python `dict.setdefault`: return the stored value if the key is present,
else insert the default (at the end) and return it. -/
def setdefaultQ (d : List (String × ℚ)) (k : String) (v : ℚ) :
    List (String × ℚ) × ℚ :=
  match dGetQ d k with
  | some x => (d, x)
  | none => (d ++ [(k, v)], v)

/-- The score pair `(sw, sb)` assigned by `compute_elo_ratings` to a result
string, `none` for the `continue` branch (aborted / no-result games). -/
def eloScores (result : String) : Option (ℚ × ℚ) :=
  if result = "1-0" then some (1, 0)
  else if result = "0-1" then some (0, 1)
  else if result = "1/2-1/2" then some (1/2, 1/2)
  else none

/-- One iteration of the game loop of `compute_elo_ratings`.  `nm` stands for
`normalize_engine_name` (whose code, in the missing `utils.py`, is not
available, so it is kept as an arbitrary function parameter); `E rw rb`
stands for the expected score `1 / (1 + 10 ** ((rb - rw) / 400))`, kept as a
function parameter because it is not rational-valued — the only property of
it the source relies on is used nowhere (the code sets `eb = 1 - ew`
directly).  Mirrors the source exactly: `w`/`b` are normalized once, `get_r`
normalizes its argument again, `rw` is read before `rb`, the `continue`
branch keeps the `setdefault` insertions, and `set_r(w, …)` happens before
`set_r(b, …)` — the latter using the previously read `rb`. -/
def eloStep (nm : String → String) (E : ℚ → ℚ → ℚ) (k start : ℚ)
    (ratings : List (String × ℚ)) (g : String × String × String) :
    List (String × ℚ) :=
  let w := nm g.1
  let b := nm g.2.1
  let p1 := setdefaultQ ratings (nm w) start
  let p2 := setdefaultQ p1.1 (nm b) start
  let rw := p1.2
  let rb := p2.2
  let ew := E rw rb
  let eb := 1 - ew
  match eloScores g.2.2 with
  | some sc =>
      dSetQ (dSetQ p2.1 (nm w) (rw + k * (sc.1 - ew))) (nm b) (rb + k * (sc.2 - eb))
  | none => p2.1

/-- `compute_elo_ratings` up to (but not including) the final per-entry
rounding `{n: round(v) for n, v in ratings.items()}`: the unrounded ratings
dictionary after folding the game loop over the game list. -/
def computeEloRatings (nm : String → String) (E : ℚ → ℚ → ℚ) (k start : ℚ)
    (games : List (String × String × String)) : List (String × ℚ) :=
  games.foldl (eloStep nm E k start) []

/-- The sum over all engines of (unrounded rating minus the starting
rating). -/
def eloSumDiff (start : ℚ) (d : List (String × ℚ)) : ℚ :=
  (d.map (fun kv => kv.2 - start)).sum

-- ───────────── Swiss pairing (src/tournament.py) ─────────────

/-- The fields of `TournamentPlayer` consulted by the Swiss pairing code
(`pair`, `_backtrack_pair`, `_assign_colors`): normalized name, score, win
count, color history and opponent list.  The class's remaining fields
(engine path, draw/loss counts, tie-break sums, seed) are never read by the
pairing algorithms. -/
structure TPlayer where
  name : String
  score : ℚ
  wins : Nat
  color_history : List Char
  opponents : List String
deriving DecidableEq, Repr

/-- The sort key `(-p.score, -p.wins, p.name)` of `available.sort(...)`,
compared lexicographically, as the Boolean preorder for the stable sort. -/
def swissKeyLe (p q : TPlayer) : Bool :=
  if p.score = q.score then
    if p.wins = q.wins then decide (p.name ≤ q.name)
    else decide (q.wins < p.wins)
  else decide (q.score < p.score)

/-- The loop `for i, p2 in enumerate(rest)` of `_backtrack_pair`: the first
`p2` whose pair with `p1` is not in `played_pairs` (modelled by the
membership test `played`), together with the rest of the list
(`rest[:i] + rest[i+1:]`).  Since `_backtrack_pair` always returns a list
and never `None`, the `if sub is not None` test always succeeds and the
loop returns at this first `p2`. -/
def pickUnplayed (p1 : TPlayer) (played : String → String → Bool) :
    List TPlayer → Option (TPlayer × List TPlayer)
  | [] => none
  | p2 :: rest =>
    if played p1.name p2.name then
      match pickUnplayed p1 played rest with
      | some qr => some (qr.1, p2 :: qr.2)
      | none => none
    else some (p2, rest)

/-- `SwissPairing._backtrack_pair`, with an explicit fuel argument bounding
the recursion depth (every recursive call removes two players, so any fuel
of at least the list length suffices; the wrapper `backtrackPairTop` passes
the list length, making the fuel-exhaustion branch unreachable).  `none`
models the `IndexError` the source raises at `rest[0]` when a singleton
list remains — possible only for odd rosters. -/
def backtrackPair (played : String → String → Bool) :
    Nat → List TPlayer → Option (List TPlayer)
  | _, [] => some []
  | _, [p1, p2] => some [p1, p2]
  | 0, _ => none
  | fuel + 1, p1 :: rest =>
    match pickUnplayed p1 played rest with
    | some qr => (backtrackPair played fuel qr.2).map (fun sub => p1 :: qr.1 :: sub)
    | none =>
      match rest with
      | [] => none
      | p2 :: remaining =>
        (backtrackPair played fuel remaining).map (fun sub => p1 :: p2 :: sub)

/-- `SwissPairing._backtrack_pair(available, played_pairs, 0)` as called
from `pair`, with adequate fuel. -/
def backtrackPairTop (played : String → String → Bool) (players : List TPlayer) :
    Option (List TPlayer) :=
  backtrackPair played players.length players

/-- The grouping loop `for i in range(0, len(paired), 2)` of `pair` (the
backtracker's output for an even roster always has even length). -/
def pairUp : List TPlayer → List (TPlayer × TPlayer)
  | p1 :: p2 :: rest => (p1, p2) :: pairUp rest
  | _ => []

/-- `SwissPairing._assign_colors`; the `random.random() < 0.5` draw is the
explicit choice parameter `coin`.  `p.color_history and
p.color_history[-1] == 'b'` is exactly `getLast? = some 'b'`. -/
def assignColors (coin : TPlayer → TPlayer → Bool) (p1 p2 : TPlayer) :
    TPlayer × TPlayer :=
  let b1 : Int := (p1.color_history.count 'b' : Int) - (p1.color_history.count 'w' : Int)
  let b2 : Int := (p2.color_history.count 'b' : Int) - (p2.color_history.count 'w' : Int)
  if b1 > b2 then (p1, p2)
  else if b2 > b1 then (p2, p1)
  else if p1.color_history.getLast? = some 'b' then (p1, p2)
  else if p2.color_history.getLast? = some 'b' then (p2, p1)
  else if coin p1 p2 then (p1, p2) else (p2, p1)

/-- The bye scan `for p in reversed(available)` of `pair`: the last player
(searching from the end) who has never had a bye (`'BYE' not in
p.opponents`), together with the list with that occurrence removed. -/
def swissPickBye : List TPlayer → Option (TPlayer × List TPlayer)
  | [] => none
  | p :: rest =>
    match swissPickBye rest with
    | some br => some (br.1, p :: br.2)
    | none => if "BYE" ∈ p.opponents then none else some (p, rest)

/-- `SwissPairing.pair`: sort by the Swiss key (Python's stable sort),
extract a bye player for odd rosters (falling back to `available.pop()`,
i.e. the last element), backtrack-pair the rest and assign colors pairwise.
Returns the color-assigned pairings and the bye (`none` for even rosters). -/
def swissPair (coin : TPlayer → TPlayer → Bool) (players : List TPlayer)
    (played : String → String → Bool) :
    Option (List (TPlayer × TPlayer) × Option TPlayer) :=
  let available := players.mergeSort swissKeyLe
  let byeAvail :=
    if available.length % 2 = 1 then
      match swissPickBye available with
      | some br => (some br.1, br.2)
      | none => (available.getLast?, available.dropLast)
    else ((none : Option TPlayer), available)
  match backtrackPairTop played byeAvail.2 with
  | some paired =>
      some ((pairUp paired).map (fun pq => assignColors coin pq.1 pq.2), byeAvail.1)
  | none => none

-- ───────────── Knockout bracket (src/tournament.py) ─────────────

/-- The `while size < n: size *= 2` loop of `seed_bracket`, with fuel `n`
(the size doubles each step, so `n` iterations always suffice). -/
def koSizeLoop : Nat → Nat → Nat → Nat
  | 0, size, _ => size
  | fuel + 1, size, n => if size < n then koSizeLoop fuel (size * 2) n else size

/-- The bracket size: the smallest power of two not below the player count
(starting from 1). -/
def koSize (n : Nat) : Nat := koSizeLoop n 1 n

/-- `KnockoutBracket.seed_bracket`: pad the players with `None` up to the
bracket size and pair seed `i` against seed `size - 1 - i`. -/
def seedBracket (players : List String) : List (Option String × Option String) :=
  let n := players.length
  let size := koSize n
  let seeded := players.map some ++ List.replicate (size - n) none
  (List.range (size / 2)).map (fun i => (seeded.getD i none, seeded.getD (size - 1 - i) none))

/-- The knockout branch of `Tournament._generate_round` for round 1: split
the seeded bracket into the actual games (both slots filled) and the bye
survivors (`w or b` when one slot is `None`), each in bracket order. -/
def koRound1 (players : List String) : List (String × String) × List String :=
  let bracket := seedBracket players
  (bracket.filterMap (fun wb =>
      match wb with
      | (some w, some b) => some (w, b)
      | _ => none),
   bracket.filterMap (fun wb =>
      match wb with
      | (some w, none) => some w
      | (none, some b) => some b
      | _ => none))

/-- The `for i in range(0, len(lst) - 1, 2)` loop of
`KnockoutBracket.next_round`: consecutive pairs, each ordered by the
`random.random() < 0.5` draw (the explicit parameter `coin`); a trailing
odd element is dropped, exactly as in the source. -/
def koPairUp (coin : String → String → Bool) : List String → List (String × String)
  | a :: b :: rest => (if coin a b then (a, b) else (b, a)) :: koPairUp coin rest
  | _ => []

/-- The winners a finished round feeds into `_ko_pending_winners` through
`record_game_result`: one player per game, chosen by `adv` (which models
the game outcome — winner on a decisive result, `random.choice` on a
draw). -/
def koWinners (adv : String → String → String) (games : List (String × String)) :
    List String :=
  games.map (fun g => adv g.1 g.2)

/-- The knockout scheduling loop of `Tournament.advance_round`: while more
than one pending winner remains, pair them with `next_round`
(`shuffle` models `random.shuffle`) and play another round; with at most
one pending winner the tournament finishes and `active[0]` becomes the
winner.  Returns the winner and the number of rounds of games played.
The fuel bounds the number of rounds; `koRun` passes the pending-winner
count, which always suffices since each round at least halves it. -/
def koRunAux (shuffle : List String → List String) (coin : String → String → Bool)
    (adv : String → String → String) : Nat → List String → Option String × Nat
  | 0, pending => (pending.head?, 0)
  | fuel + 1, pending =>
    if pending.length ≤ 1 then (pending.head?, 0)
    else
      let next := koWinners adv (koPairUp coin (shuffle pending))
      let res := koRunAux shuffle coin adv fuel next
      (res.1, res.2 + 1)

/-- A full knockout tournament run after `start()`: round 1 from the seeded
bracket (counted only when it contains at least one game), then the
`advance_round` loop on the pending winners. -/
def koRun (shuffle : List String → List String) (coin : String → String → Bool)
    (adv : String → String → String) (players : List String) :
    Option String × Nat :=
  let r1 := koRound1 players
  let pending := r1.2 ++ koWinners adv r1.1
  let res := koRunAux shuffle coin adv pending.length pending
  (res.1, res.2 + (if r1.1.isEmpty then 0 else 1))

-- ───────────── Tournament controller state (src/tournament.py) ─────────────

/-- The C8-relevant fields of `TournamentGame`: the two engine names and the
mutable `result`/`status` (all other fields — pgn, durations, histories —
are written only together with these and never constrain them). -/
structure TGame where
  white : String
  black : String
  result : Option String
  status : String
deriving DecidableEq, Repr

/-- The C8-relevant fields of `Tournament`: the growing `all_games` list,
the `played_pairs` set and the `finished` flag. -/
structure TState where
  all_games : List TGame
  played_pairs : List (String × String)
  finished : Bool
deriving DecidableEq, Repr

/-- `self.played_pairs.add(frozenset({w, b}))`: a set of unordered name
pairs as a duplicate-free association list (membership up to swapping). -/
def addPair (ps : List (String × String)) (w b : String) : List (String × String) :=
  if (w, b) ∈ ps ∨ (b, w) ∈ ps then ps else ps ++ [(w, b)]

/-- `Tournament.record_game_result` restricted to the C8-relevant state:
it *unconditionally* assigns `game.result = result` and
`game.status = "done"`, and adds the pair key.  The game is addressed by
its index in `all_games`; an out-of-range index is a no-op (in Python the
caller holds a direct object reference, so the index is always valid). -/
def recordGame (s : TState) (i : Nat) (res : String) : TState :=
  match s.all_games[i]? with
  | none => s
  | some g =>
    { s with
      all_games := s.all_games.set i { g with result := some res, status := "done" },
      played_pairs := addPair s.played_pairs g.white g.black }

/-- The common effect of `start`/`_generate_round` on the C8-relevant
state: freshly constructed games (`result = None`, `status = "pending"`)
are appended to `all_games`.  Which pairs are generated depends on the
format, the standings and the random draws, so the pair list is carried by
the operation itself — the invariants hold for every choice. -/
def newRound (s : TState) (pairs : List (String × String)) : TState :=
  { s with all_games := s.all_games ++ pairs.map (fun wb =>
      { white := wb.1, black := wb.2, result := none, status := "pending" }) }

/-- `Tournament._finish`: sets the `finished` flag (the winner and status
message do not affect the C8 state). -/
def finishT (s : TState) : TState := { s with finished := true }

/-- A tournament controller operation affecting the C8-relevant state:
recording a result into game `i`, generating a round (from `start` or
`advance_round`), or finishing (from `advance_round` via `_finish`).
Every real controller call sequence projects onto a word over these. -/
inductive TOp where
  | record (i : Nat) (res : String)
  | newRound (pairs : List (String × String))
  | finish
deriving DecidableEq, Repr

/-- One controller operation. -/
def stepT (s : TState) (op : TOp) : TState :=
  match op with
  | .record i res => recordGame s i res
  | .newRound pairs => newRound s pairs
  | .finish => finishT s

/-- A sequence of controller operations. -/
def runT (s : TState) (ops : List TOp) : TState := ops.foldl stepT s

/-- Whether an operation is a result-record into game `i`. -/
def recordsIdx (op : TOp) (i : Nat) : Bool :=
  match op with
  | .record j _ => j = i
  | _ => false


end Chess

-- ═══════════════════════════ Theorems ═══════════════════════════

namespace Chess

/-- **C1.** Every move returned by the legal-move generator, applied to the
position, yields a position in which the moving side's own king is not
attacked: applying any generated move and then calling the check test for the
same side returns `false`. -/
theorem C1_legalMoves_leave_king_safe (b : Board) (t : Char) (m : Move)
    (h : m ∈ legalMovesT b t) : inCheckT (applyRaw b m) t = false := by
  simp only [legalMovesT, List.mem_flatMap, List.mem_range] at h
  obtain ⟨r, -, c, -, hm⟩ := h
  split at hm
  · simp at hm
  · split at hm
    · simp at hm
    · have h2 := (List.mem_filter.mp hm).2
      simpa using h2

/-- Witness for C1: the king move e1–e2 on a bare-kings board is generated
and leaves White's king unattacked. -/
theorem C1_witness :
    Move.mk 7 4 6 4 none ∈ legalMovesT kingsBoard 'w' ∧
      inCheckT (applyRaw kingsBoard ⟨7, 4, 6, 4, none⟩) 'w' = false :=
  ⟨by decide, C1_legalMoves_leave_king_safe kingsBoard 'w' ⟨7, 4, 6, 4, none⟩ (by decide)⟩

/-- **C2.** `game_result` decides its termination conditions in the source's
strict order: (1) zero legal moves yields checkmate (in check) or stalemate
(otherwise) regardless of the clock, repetition count, or material;
(2) otherwise a halfmove clock of at least 100 yields the 50-move draw
regardless of repetition count or material; (3) otherwise a current
position-key count of at least 3 yields the threefold-repetition draw;
(4) otherwise insufficient material yields that draw; (5) otherwise the game
continues. -/
theorem C2_gameResult_order (b : Board) :
    (legalMoves b = [] → inCheck b = true →
      gameResult b = (true, (if b.turn = 'w' then "0-1" else "1-0"), "Checkmate",
        some (if b.turn = 'w' then "black" else "white"))) ∧
    (legalMoves b = [] → inCheck b = false →
      gameResult b = (true, "1/2-1/2", "Stalemate", none)) ∧
    (legalMoves b ≠ [] → 100 ≤ b.halfmove →
      gameResult b = (true, "1/2-1/2", "Draw by 50-move rule", none)) ∧
    (legalMoves b ≠ [] → b.halfmove < 100 → 3 ≤ dGet b.pos_history (posKey b) 0 →
      gameResult b = (true, "1/2-1/2", "Draw by threefold repetition", none)) ∧
    (legalMoves b ≠ [] → b.halfmove < 100 → dGet b.pos_history (posKey b) 0 < 3 →
      insufficient b = true →
      gameResult b = (true, "1/2-1/2", "Draw by insufficient material", none)) ∧
    (legalMoves b ≠ [] → b.halfmove < 100 → dGet b.pos_history (posKey b) 0 < 3 →
      insufficient b = false → gameResult b = (false, "", "", none)) := by
  refine ⟨fun h1 h2 => ?_, fun h1 h2 => ?_, fun h1 h2 => ?_, fun h1 h2 h3 => ?_,
    fun h1 h2 h3 h4 => ?_, fun h1 h2 h3 h4 => ?_⟩
  · simp [gameResult, h1, h2]
  · simp [gameResult, h1, h2]
  · simp [gameResult, h1, h2]
  · simp [gameResult, h1, Nat.not_le.mpr h2, h3]
  · simp [gameResult, h1, Nat.not_le.mpr h2, Nat.not_le.mpr h3, h4]
  · simp [gameResult, h1, Nat.not_le.mpr h2, Nat.not_le.mpr h3, h4]

/-- Witness for C2: a stalemate position whose clock and repetition counts are
far past their thresholds is still reported as stalemate (order 1 before 2/3),
and a live bare-kings position with clock 100 and repetition count 3 and
insufficient material is reported as the 50-move draw (order 2 before 3/4). -/
theorem C2_witness :
    gameResult staleBoard = (true, "1/2-1/2", "Stalemate", none) ∧
      gameResult fiftyBoard = (true, "1/2-1/2", "Draw by 50-move rule", none) :=
  ⟨(C2_gameResult_order staleBoard).2.1 (by decide) (by decide),
   (C2_gameResult_order fiftyBoard).2.2.1 (by decide) (by decide)⟩

/-- **C3.** A decodable move token that is not in the legal-move set (and,
when it has no promotion letter, cannot be completed to a legal queen
promotion) is rejected with an error, and the position object is left entirely
unchanged: grid, side-to-move, castling rights, en-passant target, clocks,
histories and repetition counts all keep their prior values. -/
theorem C3_illegal_move_rejected (b : Board) (uci : String) (mv : Move)
    (hp : parseUci uci = .ok mv)
    (h1 : mv ∉ legalMoves b)
    (h2 : mv.promo = none → { mv with promo := some 'q' } ∉ legalMoves b) :
    applyUciState b uci = (b, .error ("Illegal move: '" ++ uci ++ "'")) := by
  have hc : completeMove (legalMoves b) mv = none := by
    unfold completeMove
    rw [if_neg h1, if_neg]
    · rintro ⟨hn, hq⟩
      exact h2 hn hq
  unfold applyUciState applyUci
  rw [hp]
  simp [hc]

/-- Witness for C3: the token `e2e5` (a three-square pawn push) is rejected on
the starting position and the board is unchanged. -/
theorem C3_witness :
    applyUciState startBoard "e2e5" = (startBoard, .error "Illegal move: 'e2e5'") :=
  C3_illegal_move_rejected startBoard "e2e5" ⟨6, 4, 3, 4, none⟩ rfl
    (by decide) (fun _ => by decide)

/-- The white non-king piece list of `_insufficient` transports along a
permutation of the row-major piece scan. -/
theorem wsPieces_perm {g : Grid} {l : List Char} (h : List.Perm (pieceScan g) l) :
    List.Perm (wsPieces g) (((l.filter (fun p => p.isUpper)).map Char.toLower).filter (· ≠ 'k')) :=
  ((h.filter _).map _).filter _

/-- The black non-king piece list of `_insufficient` transports along a
permutation of the row-major piece scan. -/
theorem bsPieces_perm {g : Grid} {l : List Char} (h : List.Perm (pieceScan g) l) :
    List.Perm (bsPieces g) (((l.filter (fun p => !p.isUpper)).map Char.toLower).filter (· ≠ 'k')) :=
  ((h.filter _).map _).filter _

/-- **C9.** The insufficient-material test: a position whose pieces are
exactly the two kings, or the two kings plus a single bishop, or the two
kings plus a single knight, is an insufficient-material draw; the two kings
plus a pawn is not. -/
theorem C9_insufficient_material (b : Board) :
    (List.Perm (pieceScan b.board) ['K', 'k'] → insufficient b = true) ∧
    (List.Perm (pieceScan b.board) ['K', 'k', 'B'] ∨
        List.Perm (pieceScan b.board) ['K', 'k', 'b'] → insufficient b = true) ∧
    (List.Perm (pieceScan b.board) ['K', 'k', 'N'] ∨
        List.Perm (pieceScan b.board) ['K', 'k', 'n'] → insufficient b = true) ∧
    (List.Perm (pieceScan b.board) ['K', 'k', 'P'] ∨
        List.Perm (pieceScan b.board) ['K', 'k', 'p'] → insufficient b = false) := by
  refine ⟨fun h => ?_, fun h => ?_, fun h => ?_, fun h => ?_⟩
  · have hw : wsPieces b.board = [] := ((wsPieces_perm h).trans (by decide)).eq_nil
    have hb : bsPieces b.board = [] := ((bsPieces_perm h).trans (by decide)).eq_nil
    simp [insufficient, hw, hb]
  · rcases h with h | h
    · have hw : wsPieces b.board = ['b'] :=
        List.perm_singleton.mp ((wsPieces_perm h).trans (by decide))
      have hb : bsPieces b.board = [] := ((bsPieces_perm h).trans (by decide)).eq_nil
      simp [insufficient, hw, hb]
    · have hw : wsPieces b.board = [] := ((wsPieces_perm h).trans (by decide)).eq_nil
      have hb : bsPieces b.board = ['b'] :=
        List.perm_singleton.mp ((bsPieces_perm h).trans (by decide))
      simp [insufficient, hw, hb]
  · rcases h with h | h
    · have hw : wsPieces b.board = ['n'] :=
        List.perm_singleton.mp ((wsPieces_perm h).trans (by decide))
      have hb : bsPieces b.board = [] := ((bsPieces_perm h).trans (by decide)).eq_nil
      simp [insufficient, hw, hb]
    · have hw : wsPieces b.board = [] := ((wsPieces_perm h).trans (by decide)).eq_nil
      have hb : bsPieces b.board = ['n'] :=
        List.perm_singleton.mp ((bsPieces_perm h).trans (by decide))
      simp [insufficient, hw, hb]
  · rcases h with h | h
    · have hw : wsPieces b.board = ['p'] :=
        List.perm_singleton.mp ((wsPieces_perm h).trans (by decide))
      have hb : bsPieces b.board = [] := ((bsPieces_perm h).trans (by decide)).eq_nil
      simp [insufficient, hw, hb]
    · have hw : wsPieces b.board = [] := ((wsPieces_perm h).trans (by decide)).eq_nil
      have hb : bsPieces b.board = ['p'] :=
        List.perm_singleton.mp ((bsPieces_perm h).trans (by decide))
      simp [insufficient, hw, hb]

/-- Witness for C9: concrete bare-kings, KB-vs-K, KN-vs-K and KP-vs-K
positions evaluated through the theorem. -/
theorem C9_witness :
    insufficient kingsBoard = true ∧ insufficient kbkBoard = true ∧
      insufficient knkBoard = true ∧ insufficient kpkBoard = false :=
  ⟨(C9_insufficient_material kingsBoard).1 (by decide),
   (C9_insufficient_material kbkBoard).2.1 (Or.inl (by decide)),
   (C9_insufficient_material knkBoard).2.2.1 (Or.inl (by decide)),
   (C9_insufficient_material kpkBoard).2.2.2 (Or.inl (by decide))⟩

end Chess

namespace Chess

theorem wsSplitGo_cons (c : Char) (l tok : List Char) :
    wsSplitGo (c :: l) tok =
      if c = ' ' then
        (if tok = [] then wsSplitGo l [] else tok.reverse :: wsSplitGo l [])
      else wsSplitGo l (c :: tok) := rfl

theorem wsSplitGo_append (a rest tok : List Char) (ha : ' ' ∉ a) :
    wsSplitGo (a ++ rest) tok = wsSplitGo rest (a.reverse ++ tok) := by
  induction a generalizing tok with
  | nil => simp
  | cons c cs ih =>
    have hc : ¬c = ' ' := fun h => ha (h ▸ List.mem_cons_self c cs)
    rw [List.cons_append, wsSplitGo_cons, if_neg hc, ih _ (fun h => ha (List.mem_cons_of_mem _ h))]
    simp

theorem wsSplit_field (a rest : List Char) (ha : ' ' ∉ a) (hne : a ≠ []) :
    wsSplit (a ++ ' ' :: rest) = a :: wsSplit rest := by
  unfold wsSplit
  rw [wsSplitGo_append a (' ' :: rest) [] ha, List.append_nil]
  have h1 : a.reverse ≠ [] := by simpa using hne
  simp [wsSplitGo, h1]

theorem wsSplit_last (a : List Char) (ha : ' ' ∉ a) (hne : a ≠ []) :
    wsSplit a = [a] := by
  unfold wsSplit
  have h0 := wsSplitGo_append a [] [] ha
  rw [List.append_nil, List.append_nil] at h0
  rw [h0]
  have h1 : a.reverse ≠ [] := by simpa using hne
  simp [wsSplitGo, h1]

theorem joinSep_cons_cons (sep : Char) (x y : List Char) (rest : List (List Char)) :
    joinSep sep (x :: y :: rest) = x ++ sep :: joinSep sep (y :: rest) := rfl

theorem wsSplit_take4_fields (f1 f2 f3 f4 rest : List Char)
    (h1 : ' ' ∉ f1) (h1n : f1 ≠ []) (h2 : ' ' ∉ f2) (h2n : f2 ≠ [])
    (h3 : ' ' ∉ f3) (h3n : f3 ≠ []) (h4 : ' ' ∉ f4) (h4n : f4 ≠ []) :
    (wsSplit (f1 ++ ' ' :: (f2 ++ ' ' :: (f3 ++ ' ' :: (f4 ++ ' ' :: rest))))).take 4 =
      [f1, f2, f3, f4] := by
  rw [wsSplit_field f1 _ h1 h1n, wsSplit_field f2 _ h2 h2n, wsSplit_field f3 _ h3 h3n,
    wsSplit_field f4 _ h4 h4n]
  rfl

theorem wsSplit_fields4 (f1 f2 f3 f4 : List Char)
    (h1 : ' ' ∉ f1) (h1n : f1 ≠ []) (h2 : ' ' ∉ f2) (h2n : f2 ≠ [])
    (h3 : ' ' ∉ f3) (h3n : f3 ≠ []) (h4 : ' ' ∉ f4) (h4n : f4 ≠ []) :
    wsSplit (f1 ++ ' ' :: (f2 ++ ' ' :: (f3 ++ ' ' :: f4))) = [f1, f2, f3, f4] := by
  rw [wsSplit_field f1 _ h1 h1n, wsSplit_field f2 _ h2 h2n, wsSplit_field f3 _ h3 h3n,
    wsSplit_last f4 h4 h4n]

theorem slashSplit_cons (c : Char) (cs : List Char) :
    slashSplit (c :: cs) =
      if c = '/' then [] :: slashSplit cs
      else
        match slashSplit cs with
        | [] => [[c]]
        | t :: ts => (c :: t) :: ts := rfl

theorem slashSplit_nosep (a : List Char) (ha : '/' ∉ a) : slashSplit a = [a] := by
  induction a with
  | nil => rfl
  | cons c cs ih =>
    have hc : ¬c = '/' := fun h => ha (h ▸ List.mem_cons_self c cs)
    simp [slashSplit, hc, ih (fun h => ha (List.mem_cons_of_mem _ h))]

theorem slashSplit_sep (a rest : List Char) (ha : '/' ∉ a) :
    slashSplit (a ++ '/' :: rest) = a :: slashSplit rest := by
  induction a with
  | nil => simp [slashSplit]
  | cons c cs ih =>
    have hc : ¬c = '/' := fun h => ha (h ▸ List.mem_cons_self c cs)
    have ih2 := ih (fun h => ha (List.mem_cons_of_mem _ h))
    rw [List.cons_append, slashSplit_cons, if_neg hc, ih2]

theorem slashSplit_joinSep (parts : List (List Char)) (hne : parts ≠ [])
    (hp : ∀ p ∈ parts, '/' ∉ p) : slashSplit (joinSep '/' parts) = parts := by
  induction parts with
  | nil => cases hne rfl
  | cons x xs ih =>
    cases xs with
    | nil => exact slashSplit_nosep x (hp x (List.mem_cons_self _ _))
    | cons y rest =>
      rw [joinSep_cons_cons, slashSplit_sep x _ (hp x (List.mem_cons_self _ _))]
      rw [ih (by simp) (fun p hm => hp p (List.mem_cons_of_mem _ hm))]

theorem joinSep_chars (sep : Char) (parts : List (List Char)) :
    ∀ ch ∈ joinSep sep parts, ch = sep ∨ ∃ p ∈ parts, ch ∈ p := by
  induction parts with
  | nil => simp [joinSep]
  | cons x xs ih =>
    cases xs with
    | nil => exact fun ch hch => Or.inr ⟨x, by simp, hch⟩
    | cons y rest =>
      intro ch hch
      rw [joinSep_cons_cons] at hch
      rcases List.mem_append.mp hch with h | h
      · exact Or.inr ⟨x, by simp, h⟩
      · rcases List.mem_cons.mp h with h | h
        · exact Or.inl h
        · rcases ih ch h with h | ⟨p, hp, hcp⟩
          · exact Or.inl h
          · exact Or.inr ⟨p, List.mem_cons_of_mem _ hp, hcp⟩

theorem decodeRow_append (a c : List Char) :
    decodeRow (a ++ c) = decodeRow a ++ decodeRow c := by
  simp [decodeRow]

theorem decodeRow_digits (e : Nat) (h1 : 1 ≤ e) (h2 : e ≤ 9) :
    decodeRow (toString e).data = List.replicate e '.' := by
  interval_cases e <;> decide

theorem validCell_props {c : Char} (h : validCell c = true) :
    c ≠ '/' ∧ c ≠ ' ' ∧ (c ≠ '.' → c.isDigit = false) := by
  simp only [validCell, pieceChars, Bool.or_eq_true, decide_eq_true_eq,
    List.mem_cons, List.not_mem_nil, or_false] at h
  rcases h with h | h | h | h | h | h | h | h | h | h | h | h | h <;> subst h <;>
    refine ⟨by decide, by decide, fun h2 => by first | decide | exact absurd rfl h2⟩

theorem decodeRow_encodeRowAux (row : List Char) (e : Nat)
    (hc : ∀ c ∈ row, validCell c = true) (hlen : e + row.length ≤ 9) :
    decodeRow (encodeRowAux row e) = List.replicate e '.' ++ row := by
  induction row generalizing e with
  | nil =>
    by_cases he : e = 0
    · subst he; simp [encodeRowAux, decodeRow]
    · simp only [encodeRowAux, if_pos he]
      rw [decodeRow_digits e (Nat.one_le_iff_ne_zero.mpr he) (by simpa using hlen)]
      simp
  | cons c cs ih =>
    by_cases hdot : c = '.'
    · subst hdot
      simp only [encodeRowAux, if_pos rfl, ite_true]
      rw [ih (e + 1) (fun x hx => hc x (List.mem_cons_of_mem _ hx))
        (by simp only [List.length_cons] at hlen; omega)]
      rw [List.replicate_succ' e '.']
      simp
    · have hcv := hc c (List.mem_cons_self _ _)
      have hnd : c.isDigit = false := (validCell_props hcv).2.2 hdot
      simp only [encodeRowAux, if_neg hdot]
      rw [decodeRow_append]
      have hdc : decodeRow (c :: encodeRowAux cs 0) = c :: decodeRow (encodeRowAux cs 0) := by
        simp [decodeRow, hnd]
      rw [hdc, ih 0 (fun x hx => hc x (List.mem_cons_of_mem _ hx))
        (by simp only [List.length_cons] at hlen; omega)]
      by_cases he : e = 0
      · subst he; simp [decodeRow]
      · simp only [if_pos he]
        rw [decodeRow_digits e (Nat.one_le_iff_ne_zero.mpr he)
          (by simp only [List.length_cons] at hlen; omega)]
        simp

theorem encodeRowAux_chars (row : List Char) (e : Nat) (hlen : e + row.length ≤ 9) :
    ∀ ch ∈ encodeRowAux row e, ch ∈ row ∨ ch.isDigit = true := by
  induction row generalizing e with
  | nil =>
    intro ch hch
    right
    simp only [encodeRowAux] at hch
    by_cases he : e = 0
    · rw [if_neg (by simpa using he)] at hch; cases hch
    · rw [if_pos he] at hch
      have h2 : e ≤ 9 := by simpa using hlen
      have h1 : 1 ≤ e := Nat.one_le_iff_ne_zero.mpr he
      interval_cases e <;> exact List.all_eq_true.mp (by decide) _ hch
  | cons c cs ih =>
    intro ch hch
    by_cases hdot : c = '.'
    · subst hdot
      simp only [encodeRowAux, if_pos rfl, ite_true] at hch
      rcases ih (e + 1) (by simp only [List.length_cons] at hlen; omega) ch hch with h | h
      · exact Or.inl (List.mem_cons_of_mem _ h)
      · exact Or.inr h
    · simp only [encodeRowAux, if_neg hdot] at hch
      rcases List.mem_append.mp hch with h | h
      · right
        by_cases he : e = 0
        · rw [if_neg (by simpa using he)] at h; cases h
        · rw [if_pos he] at h
          have h2 : e ≤ 9 := by simp only [List.length_cons] at hlen; omega
          have h1 : 1 ≤ e := Nat.one_le_iff_ne_zero.mpr he
          interval_cases e <;> exact List.all_eq_true.mp (by decide) _ h
      · rcases List.mem_cons.mp h with h | h
        · exact Or.inl (h ▸ List.mem_cons_self _ _)
        · rcases ih 0 (by simp only [List.length_cons] at hlen; omega) ch h with h | h
          · exact Or.inl (List.mem_cons_of_mem _ h)
          · exact Or.inr h

theorem encodeRowAux_ne_nil (row : List Char) (e : Nat) (hlen : e + row.length ≤ 9)
    (h : row ≠ [] ∨ e ≠ 0) : encodeRowAux row e ≠ [] := by
  induction row generalizing e with
  | nil =>
    rcases h with h | h
    · cases h rfl
    · simp only [encodeRowAux, if_pos h]
      have h2 : e ≤ 9 := by simpa using hlen
      have h1 : 1 ≤ e := Nat.one_le_iff_ne_zero.mpr h
      interval_cases e <;> decide
  | cons c cs ih =>
    by_cases hdot : c = '.'
    · subst hdot
      simp only [encodeRowAux, if_pos rfl, ite_true]
      exact ih (e + 1) (by simp only [List.length_cons] at hlen; omega) (Or.inr (by omega))
    · simp only [encodeRowAux, if_neg hdot]
      simp

end Chess

namespace Chess

theorem data_ne_nil {s : String} (h : s ≠ "") : s.data ≠ [] := by
  intro hd
  apply h
  cases s with
  | mk d =>
    have hd2 : d = [] := hd
    subst hd2
    rfl

theorem mk_data (s : String) : String.mk s.data = s := rfl

theorem validRow_iff {row : List Char} (h : validRow row = true) :
    row.length = 8 ∧ ∀ c ∈ row, validCell c = true := by
  simp only [validRow, Bool.and_eq_true, decide_eq_true_eq, List.all_eq_true] at h
  exact h

theorem validBoard_iff {b : Board} (h : ValidBoard b = true) :
    b.board.length = 8 ∧ (∀ row ∈ b.board, validRow row = true) ∧
      (b.turn = 'w' ∨ b.turn = 'b') ∧ b.castling ≠ "" ∧
      (∀ c ∈ b.castling.data, c ∈ "KQkq-".data) ∧ validEp b.ep = true := by
  simp only [ValidBoard, Bool.and_eq_true, decide_eq_true_eq, List.all_eq_true,
    Bool.or_eq_true, ne_eq] at h
  obtain ⟨⟨⟨⟨⟨h1, h2⟩, h3⟩, h4⟩, h5⟩, h6⟩ := h
  exact ⟨h1, h2, h3, h4, h5, h6⟩

theorem boardField_no_space {g : Grid} (hrows : ∀ row ∈ g, validRow row = true) :
    ' ' ∉ boardField g := by
  intro hmem
  rcases joinSep_chars '/' (g.map encodeRow) ' ' hmem with h | ⟨p, hp, hcp⟩
  · exact absurd h (by decide)
  · rcases List.mem_map.mp hp with ⟨row, hrow, rfl⟩
    obtain ⟨h8, hcells⟩ := validRow_iff (hrows row hrow)
    rcases encodeRowAux_chars row 0 (by omega) ' ' hcp with h | h
    · exact (validCell_props (hcells ' ' h)).2.1 rfl
    · exact absurd h (by decide)

theorem boardField_ne_nil {g : Grid} (h8 : g.length = 8) : boardField g ≠ [] := by
  cases g with
  | nil => simp at h8
  | cons x xs =>
    cases xs with
    | nil => simp at h8
    | cons y r =>
      rw [boardField, List.map_cons, List.map_cons, joinSep_cons_cons]
      simp

theorem validEp_props {s : String} (h : validEp s = true) :
    s.data ≠ [] ∧ ' ' ∉ s.data := by
  simp only [validEp, Bool.or_eq_true, Bool.and_eq_true, decide_eq_true_eq] at h
  rcases h with h | ⟨⟨hl, h0⟩, h1⟩
  · subst h; exact ⟨by decide, by decide⟩
  · obtain ⟨c0, c1, hd⟩ := List.length_eq_two.mp hl
    rw [hd] at h0 h1 ⊢
    have h0c : c0 ∈ "abcdefgh".data := h0
    have h1c : c1 ∈ "12345678".data := h1
    refine ⟨by simp, ?_⟩
    intro hmem
    simp only [List.mem_cons, List.not_mem_nil, or_false] at hmem
    rcases hmem with hm | hm
    · subst hm; exact absurd h0c (by decide)
    · subst hm; exact absurd h1c (by decide)

theorem loadFen_posKey (b : Board) (h : ValidBoard b = true) :
    (loadFen (posKey b)).board = b.board ∧ (loadFen (posKey b)).turn = b.turn ∧
      (loadFen (posKey b)).castling = b.castling ∧ (loadFen (posKey b)).ep = b.ep := by
  obtain ⟨h8, hrows, hturn, hcne, hcasc, hep⟩ := validBoard_iff h
  have f1s : ' ' ∉ boardField b.board := boardField_no_space hrows
  have f1n : boardField b.board ≠ [] := boardField_ne_nil h8
  have f2s : ' ' ∉ [b.turn] := by
    intro hm
    rw [List.mem_singleton] at hm
    rcases hturn with ht | ht <;> rw [ht] at hm <;> exact absurd hm (by decide)
  have f2n : ([b.turn] : List Char) ≠ [] := by simp
  have f3s : ' ' ∉ b.castling.data := fun hm => absurd (hcasc ' ' hm) (by decide)
  have f3n : b.castling.data ≠ [] := data_ne_nil hcne
  obtain ⟨f4n, f4s⟩ := validEp_props hep
  have hdata : (toFen b).data =
      boardField b.board ++ ' ' :: ([b.turn] ++ ' ' ::
        ((if b.castling = "" then "-" else b.castling).data ++ ' ' ::
          (b.ep.data ++ ' ' :: ((toString b.halfmove).data ++ ' ' ::
            (toString b.fullmove).data)))) := rfl
  rw [if_neg hcne] at hdata
  have hkey : posKey b = String.mk (joinSep ' '
      [boardField b.board, [b.turn], b.castling.data, b.ep.data]) := by
    unfold posKey
    rw [hdata, wsSplit_take4_fields _ _ _ _ _ f1s f1n f2s f2n f3s f3n f4s f4n]
  have hsplit : wsSplit (String.mk (joinSep ' '
      [boardField b.board, [b.turn], b.castling.data, b.ep.data])).data =
      [boardField b.board, [b.turn], b.castling.data, b.ep.data] := by
    show wsSplit (boardField b.board ++ ' ' :: ([b.turn] ++ ' ' ::
      (b.castling.data ++ ' ' :: b.ep.data))) = _
    exact wsSplit_fields4 _ _ _ _ f1s f1n f2s f2n f3s f3n f4s f4n
  have hbd : slashSplit (boardField b.board) = b.board.map encodeRow := by
    apply slashSplit_joinSep
    · intro hnil
      rw [List.map_eq_nil_iff] at hnil
      rw [hnil] at h8
      simp at h8
    · intro p hp
      rcases List.mem_map.mp hp with ⟨row, hrow, rfl⟩
      intro hmem
      obtain ⟨hl8, hcells⟩ := validRow_iff (hrows row hrow)
      rcases encodeRowAux_chars row 0 (by omega) '/' hmem with hin | hdig
      · exact (validCell_props (hcells '/' hin)).1 rfl
      · exact absurd hdig (by decide)
  have hrt : ∀ row ∈ b.board, decodeRow (encodeRow row) = row := by
    intro row hrow
    obtain ⟨hl8, hcells⟩ := validRow_iff (hrows row hrow)
    have := decodeRow_encodeRowAux row 0 hcells (by omega)
    simpa [encodeRow] using this
  rw [hkey]
  unfold loadFen
  rw [hsplit]
  refine ⟨?_, rfl, mk_data _, mk_data _⟩
  show (slashSplit ([boardField b.board, [b.turn], b.castling.data,
    b.ep.data].getD 0 [])).map decodeRow = b.board
  rw [show ([boardField b.board, [b.turn], b.castling.data, b.ep.data].getD 0 []) =
    boardField b.board from rfl]
  rw [hbd, List.map_map]
  have hmap : List.map (decodeRow ∘ encodeRow) b.board = List.map id b.board :=
    List.map_congr_left (fun row hrow => hrt row hrow)
  rw [hmap, List.map_id]

end Chess

namespace Chess

theorem inCheckT_congr (b1 b2 : Board) (t : Char) (hb : b1.board = b2.board) :
    inCheckT b1 t = inCheckT b2 t := by
  unfold inCheckT
  rw [hb]

theorem applyRaw_board_congr (b1 b2 : Board) (mv : Move)
    (hb : b1.board = b2.board) (he : b1.ep = b2.ep) (ht : b1.turn = b2.turn) :
    (applyRaw b1 mv).board = (applyRaw b2 mv).board := by
  unfold applyRaw
  dsimp only
  rw [hb, he, ht]

theorem legalMovesT_congr (b1 b2 : Board) (t : Char) (hb : b1.board = b2.board)
    (he : b1.ep = b2.ep) (hc : b1.castling = b2.castling) (ht : b1.turn = b2.turn) :
    legalMovesT b1 t = legalMovesT b2 t := by
  have hic : ∀ mv, inCheckT (applyRaw b1 mv) t = inCheckT (applyRaw b2 mv) t :=
    fun mv => inCheckT_congr _ _ _ (applyRaw_board_congr b1 b2 mv hb he ht)
  unfold legalMovesT
  simp only [hb, he, hc, hic]

/-- Well-formed promotion tags. -/
def promoOk (o : Option Char) : Bool :=
  o = none || o = some 'q' || o = some 'r' || o = some 'b' || o = some 'n'

theorem andL {a b : Bool} (h : (a && b) = true) : a = true := by
  cases a <;> cases b <;> simp_all

theorem andR {a b : Bool} (h : (a && b) = true) : b = true := by
  cases a <;> cases b <;> simp_all

theorem valid_of_bounds {x y : Int} (h1 : 0 ≤ x) (h2 : x < 8) (h3 : 0 ≤ y)
    (h4 : y < 8) : valid x y = true := by
  simp only [valid, Bool.and_eq_true, decide_eq_true_eq]
  exact ⟨⟨⟨h1, h2⟩, h3⟩, h4⟩

theorem slideMoves_spec (g : Grid) (turn : Char) (r c : Int) (fuel : Nat)
    (nr nc dr dc : Int) (mv : Move) (h : mv ∈ slideMoves g turn r c fuel nr nc dr dc) :
    mv.fr = r ∧ mv.fc = c ∧ valid mv.tr mv.tc = true ∧ mv.promo = none := by
  induction fuel generalizing nr nc with
  | zero => cases h
  | succ n ih =>
    simp only [slideMoves] at h
    split at h
    · rename_i hv
      split at h
      · rcases List.mem_cons.mp h with rfl | h
        · exact ⟨rfl, rfl, hv, rfl⟩
        · exact ih _ _ h
      · split at h
        · rw [List.mem_singleton] at h
          subst h
          exact ⟨rfl, rfl, hv, rfl⟩
        · cases h
    · cases h

theorem pawnMoves_spec (g : Grid) (ep : String) (turn : Char) (r c : Int) (mv : Move)
    (hcb : 0 ≤ c ∧ c < 8) (h : mv ∈ pawnMoves g ep turn r c) :
    mv.fr = r ∧ mv.fc = c ∧ valid mv.tr mv.tc = true ∧ promoOk mv.promo = true := by
  by_cases ht : turn = 'w' <;>
    [simp only [pawnMoves, ht, reduceIte] at h;
     simp only [pawnMoves, if_neg ht] at h] <;>
  · rcases List.mem_append.mp h with h | h
    · split at h
      · rename_i hg
        have hv := andL hg
        split at h
        · simp only [List.mem_cons, List.not_mem_nil, or_false] at h
          rcases h with rfl | rfl | rfl | rfl <;> exact ⟨rfl, rfl, hv, rfl⟩
        · rcases List.mem_cons.mp h with rfl | h2
          · exact ⟨rfl, rfl, hv, rfl⟩
          · split at h2
            · rename_i hdbl
              rw [List.mem_singleton] at h2
              subst h2
              have hr0 := andL hdbl
              simp only [decide_eq_true_eq] at hr0
              subst hr0
              exact ⟨rfl, rfl, valid_of_bounds (by norm_num) (by norm_num) hcb.1 hcb.2, rfl⟩
            · cases h2
      · cases h
    · simp only [List.flatMap_cons, List.flatMap_nil, List.append_nil,
        List.mem_append] at h
      rcases h with h | h <;>
      · split at h
        · rename_i hv
          split at h
          · split at h
            · simp only [List.mem_cons, List.not_mem_nil, or_false] at h
              rcases h with rfl | rfl | rfl | rfl <;> exact ⟨rfl, rfl, hv, rfl⟩
            · rw [List.mem_singleton] at h
              subst h
              exact ⟨rfl, rfl, hv, rfl⟩
          · cases h
        · cases h

theorem knightMoves_spec (g : Grid) (piece : Char) (r c : Int) (mv : Move)
    (h : mv ∈ knightMoves g piece r c) :
    mv.fr = r ∧ mv.fc = c ∧ valid mv.tr mv.tc = true ∧ promoOk mv.promo = true := by
  simp only [knightMoves, List.mem_filterMap] at h
  obtain ⟨d, hd, hmv⟩ := h
  split at hmv
  · rename_i hcond
    cases hmv
    exact ⟨rfl, rfl, andL hcond, rfl⟩
  · cases hmv

theorem kingMoves_spec (g : Grid) (cas : String) (piece turn : Char) (r c : Int)
    (mv : Move) (h : mv ∈ kingMoves g cas piece turn r c) :
    mv.fr = r ∧ mv.fc = c ∧ valid mv.tr mv.tc = true ∧ promoOk mv.promo = true := by
  by_cases ht : turn = 'w' <;>
    [simp only [kingMoves, ht, reduceIte] at h;
     simp only [kingMoves, if_neg ht] at h] <;>
  · rcases List.mem_append.mp h with h | h
    · rcases List.mem_filterMap.mp h with ⟨d, hd, hmv⟩
      split at hmv
      · rename_i hcond
        cases hmv
        exact ⟨rfl, rfl, andL hcond, rfl⟩
      · cases hmv
    · split at h
      · rcases List.mem_append.mp h with h | h <;>
        · repeat' split at h
          all_goals
            first
            | exact absurd h (List.not_mem_nil _)
            | (rw [List.mem_singleton] at h
               subst h
               exact ⟨rfl, rfl, rfl, rfl⟩)
      · cases h

theorem pseudoMoves_spec (g : Grid) (ep cas : String) (r c : Int) (mv : Move)
    (hcb : 0 ≤ c ∧ c < 8) (h : mv ∈ pseudoMoves g ep cas r c) :
    mv.fr = r ∧ mv.fc = c ∧ valid mv.tr mv.tc = true ∧ promoOk mv.promo = true := by
  simp only [pseudoMoves] at h
  split at h
  · cases h
  · split at h
    · exact pawnMoves_spec g ep _ r c mv hcb h
    · split at h
      · exact knightMoves_spec g _ r c mv h
      · split at h
        · rcases List.mem_flatMap.mp h with ⟨d, hd, hmv⟩
          obtain ⟨h1, h2, h3, h4⟩ := slideMoves_spec g _ r c 8 _ _ _ _ mv hmv
          exact ⟨h1, h2, h3, by rw [h4]; decide⟩
        · split at h
          · exact kingMoves_spec g cas _ _ r c mv h
          · cases h

end Chess

namespace Chess

theorem completeMove_mem {legal : List Move} {mv0 mv : Move}
    (h : completeMove legal mv0 = some mv) : mv ∈ legal := by
  unfold completeMove at h
  split at h
  · cases h; assumption
  · split at h
    · rename_i hcond
      cases h
      exact hcond.2
    · cases h

theorem applyUciBody_fields (b : Board) (u : String) (legal : List Move) (mv : Move) :
    (applyUciBody b u legal mv).1.board = (applyRaw b mv).board ∧
      (applyUciBody b u legal mv).1.turn = (applyRaw b mv).turn ∧
      (applyUciBody b u legal mv).1.castling = (applyRaw b mv).castling ∧
      (applyUciBody b u legal mv).1.ep = (applyRaw b mv).ep ∧
      (applyUciBody b u legal mv).1.halfmove = (applyRaw b mv).halfmove ∧
      (applyUciBody b u legal mv).1.pos_history =
        dSet b.pos_history (posKey (applyUciBody b u legal mv).1)
          (dGet b.pos_history (posKey (applyUciBody b u legal mv).1) 0 + 1) := by
  unfold applyUciBody
  dsimp only
  split <;> (try split) <;> (try split) <;>
    exact ⟨rfl, rfl, rfl, rfl, rfl, rfl⟩

theorem applyUci_ok_spec (b : Board) (u : String) (r : Board × String × Option Char)
    (h : applyUci b u = .ok r) :
    ∃ mv ∈ legalMoves b,
      r.1.board = (applyRaw b mv).board ∧ r.1.turn = (applyRaw b mv).turn ∧
        r.1.castling = (applyRaw b mv).castling ∧ r.1.ep = (applyRaw b mv).ep ∧
        r.1.halfmove = (applyRaw b mv).halfmove ∧
        r.1.pos_history = dSet b.pos_history (posKey r.1)
          (dGet b.pos_history (posKey r.1) 0 + 1) := by
  unfold applyUci at h
  split at h
  · cases h
  · dsimp only at h
    split at h
    · cases h
    · rename_i mv0 mv hcm
      injection h with hb
      subst hb
      exact ⟨mv, completeMove_mem hcm, applyUciBody_fields b u (legalMoves b) mv⟩

theorem applyUci_legal_ne (b : Board) (u : String) (r : Board × String × Option Char)
    (h : applyUci b u = .ok r) : legalMoves b ≠ [] := by
  obtain ⟨mv, hmem, -⟩ := applyUci_ok_spec b u r h
  exact List.ne_nil_of_mem hmem

end Chess

namespace Chess

theorem validRow_mk {row : List Char} (h8 : row.length = 8)
    (hc : ∀ c ∈ row, validCell c = true) : validRow row = true := by
  simp only [validRow, Bool.and_eq_true, decide_eq_true_eq, List.all_eq_true]
  exact ⟨h8, hc⟩

theorem setCell_GV {g : Grid} (hg : g.length = 8 ∧ ∀ row ∈ g, validRow row = true)
    (r c : Int) {v : Char} (hv : validCell v = true) :
    (setCell g r c v).length = 8 ∧ ∀ row ∈ setCell g r c v, validRow row = true := by
  obtain ⟨h8, hrows⟩ := hg
  constructor
  · simp [setCell, h8]
  · intro row hrow
    by_cases hr : r.toNat < g.length
    · have hbase : g.getD r.toNat [] ∈ g := by
        rw [List.getD_eq_getElem _ _ hr]
        exact List.getElem_mem _
      rcases List.mem_or_eq_of_mem_set hrow with h | h
      · exact hrows row h
      · subst h
        obtain ⟨hbl, hbc⟩ := validRow_iff (hrows _ hbase)
        by_cases hcn : c.toNat < (g.getD r.toNat []).length
        · apply validRow_mk
          · simpa using hbl
          · intro x hx
            rcases List.mem_or_eq_of_mem_set hx with h2 | h2
            · exact hbc x h2
            · subst h2; exact hv
        · rw [List.set_eq_of_length_le (le_of_not_lt hcn)]
          exact hrows _ hbase
    · have hset : setCell g r c v = g :=
        List.set_eq_of_length_le (le_of_not_lt hr)
      rw [hset] at hrow
      exact hrows row hrow

theorem cellAt_validCell {g : Grid} (hrows : ∀ row ∈ g, validRow row = true)
    (r c : Int) : validCell (cellAt g r c) = true := by
  unfold cellAt
  by_cases hr : r.toNat < g.length
  · have hbase : g.getD r.toNat [] ∈ g := by
      rw [List.getD_eq_getElem _ _ hr]
      exact List.getElem_mem _
    obtain ⟨-, hbc⟩ := validRow_iff (hrows _ hbase)
    by_cases hc : c.toNat < (g.getD r.toNat []).length
    · rw [List.getD_eq_getElem _ _ hc]
      exact hbc _ (List.getElem_mem _)
    · rw [List.getD_eq_default _ _ (le_of_not_lt hc)]
      decide
  · rw [List.getD_eq_default _ _ (le_of_not_lt hr)]
    simp only [List.getD_nil]
    decide

theorem fileChar_mem {c : Int} (h1 : 0 ≤ c) (h2 : c < 8) :
    fileChar c ∈ "abcdefgh".data := by
  interval_cases c <;> decide

theorem rankChar_div2_mem {s : Int} (h1 : 0 ≤ s) (h2 : s ≤ 14) :
    rankChar (s / 2) ∈ "12345678".data := by
  interval_cases s <;> decide

theorem validEp_mk {f rk : Char} (hf : f ∈ "abcdefgh".data)
    (hr : rk ∈ "12345678".data) : validEp (String.mk [f, rk]) = true := by
  simp only [validEp, Bool.or_eq_true, Bool.and_eq_true, decide_eq_true_eq]
  right
  exact ⟨⟨rfl, hf⟩, hr⟩

theorem foldl_sub {α : Type} (l : List α) (f : List Char → α → List Char)
    (hf : ∀ cs a x, x ∈ f cs a → x ∈ cs) :
    ∀ cs x, x ∈ l.foldl f cs → x ∈ cs := by
  induction l with
  | nil => exact fun cs x hx => hx
  | cons a as ih => exact fun cs x hx => hf cs a x (ih (f cs a) x hx)

theorem mem_if_erase {cond : Prop} [Decidable cond] {cs : List Char} {ch x : Char}
    (h : x ∈ if cond then cs.erase ch else cs) : x ∈ cs := by
  split at h
  · exact List.mem_of_mem_erase h
  · exact h

theorem legalMovesT_spec (b : Board) (t : Char) (mv : Move)
    (h : mv ∈ legalMovesT b t) :
    (0 ≤ mv.fr ∧ mv.fr < 8) ∧ (0 ≤ mv.fc ∧ mv.fc < 8) ∧
      valid mv.tr mv.tc = true ∧ promoOk mv.promo = true := by
  simp only [legalMovesT, List.mem_flatMap, List.mem_range] at h
  obtain ⟨r, hr, c, hc, hm⟩ := h
  split at hm
  · cases hm
  · split at hm
    · cases hm
    · have hmem := (List.mem_filter.mp hm).1
      obtain ⟨h1, h2, h3, h4⟩ :=
        pseudoMoves_spec b.board b.ep b.castling (r : Int) (c : Int) mv
          ⟨by omega, by omega⟩ hmem
      rw [h1, h2]
      exact ⟨⟨by omega, by omega⟩, ⟨by omega, by omega⟩, h3, h4⟩

theorem promo_chars {o : Option Char} (h : promoOk o = true) :
    o = none ∨ o = some 'q' ∨ o = some 'r' ∨ o = some 'b' ∨ o = some 'n' := by
  simp only [promoOk, Bool.or_eq_true, decide_eq_true_eq] at h
  tauto

set_option maxHeartbeats 1600000 in
theorem applyRaw_valid (b : Board) (mv : Move) (h8 : b.board.length = 8)
    (hrows : ∀ row ∈ b.board, validRow row = true)
    (hcasc : ∀ c ∈ b.castling.data, c ∈ "KQkq-".data)
    (hfr : 0 ≤ mv.fr ∧ mv.fr < 8) (hfc : 0 ≤ mv.fc ∧ mv.fc < 8)
    (htv : valid mv.tr mv.tc = true) (hpromo : promoOk mv.promo = true) :
    ((applyRaw b mv).board.length = 8 ∧
        ∀ row ∈ (applyRaw b mv).board, validRow row = true) ∧
      ((applyRaw b mv).turn = 'w' ∨ (applyRaw b mv).turn = 'b') ∧
      (applyRaw b mv).castling ≠ "" ∧
      (∀ c ∈ (applyRaw b mv).castling.data, c ∈ "KQkq-".data) ∧
      validEp (applyRaw b mv).ep = true := by
  have htr : 0 ≤ mv.tr ∧ mv.tr < 8 ∧ 0 ≤ mv.tc ∧ mv.tc < 8 := by
    simp only [valid, Bool.and_eq_true, decide_eq_true_eq] at htv
    exact ⟨htv.1.1.1, htv.1.1.2, htv.1.2, htv.2⟩
  refine ⟨?_, ?_, ?_, ?_, ?_⟩
  · -- grid validity
    rcases promo_chars hpromo with hp | hp | hp | hp | hp <;>
    · unfold applyRaw
      rw [hp]
      dsimp only
      repeat'
        first
        | exact ⟨h8, hrows⟩
        | exact cellAt_validCell hrows _ _
        | (refine setCell_GV ?_ _ _ ?_)
        | split
        | decide
  · unfold applyRaw
    dsimp only
    split
    · right; rfl
    · left; rfl
  · unfold applyRaw
    dsimp only
    intro hcontra
    repeat' split at hcontra
    all_goals
      first
      | exact absurd hcontra (by decide)
      | (rename_i hne
         exact hne (congrArg String.data hcontra))
  · unfold applyRaw
    dsimp only
    intro ch hch
    repeat' split at hch
    all_goals
      repeat
        first
        | exact hcasc ch hch
        | (replace hch := foldl_sub _ _ (fun cs a x hx => mem_if_erase hx) _ _ hch)
        | (replace hch := List.mem_of_mem_filter hch)
        | exact absurd (show ch ∈ ([] : List Char) from hch) (List.not_mem_nil _)
        | (cases hch with
           | head => decide
           | tail _ h2 => exact absurd h2 (List.not_mem_nil _))
  · unfold applyRaw
    dsimp only
    split
    · exact validEp_mk (fileChar_mem hfc.1 hfc.2)
        (rankChar_div2_mem (by omega) (by omega))
    · decide

end Chess

namespace Chess

theorem validBoard_mk {b : Board} (h1 : b.board.length = 8)
    (h2 : ∀ row ∈ b.board, validRow row = true) (h3 : b.turn = 'w' ∨ b.turn = 'b')
    (h4 : b.castling ≠ "") (h5 : ∀ c ∈ b.castling.data, c ∈ "KQkq-".data)
    (h6 : validEp b.ep = true) : ValidBoard b = true := by
  simp only [ValidBoard, Bool.and_eq_true, decide_eq_true_eq, List.all_eq_true,
    Bool.or_eq_true, ne_eq]
  exact ⟨⟨⟨⟨⟨h1, h2⟩, h3⟩, h4⟩, h5⟩, h6⟩

theorem applyUci_valid (b : Board) (u : String) (r : Board × String × Option Char)
    (h : applyUci b u = .ok r) (hb : ValidBoard b = true) : ValidBoard r.1 = true := by
  obtain ⟨mv, hmem, hbd, hturn, hcas, hep, hhm, hph⟩ := applyUci_ok_spec b u r h
  obtain ⟨h8, hrows, hturnv, hcne, hcasc, hepv⟩ := validBoard_iff hb
  obtain ⟨hfr, hfc, htv, hpromo⟩ := legalMovesT_spec b b.turn mv hmem
  obtain ⟨⟨r8, rrows⟩, rturn, rcne, rcasc, repv⟩ :=
    applyRaw_valid b mv h8 hrows hcasc hfr hfc htv hpromo
  refine validBoard_mk ?_ ?_ ?_ ?_ ?_ ?_
  · rw [hbd]; exact r8
  · rw [hbd]; exact rrows
  · rw [hturn]; exact rturn
  · rw [hcas]; exact rcne
  · rw [hcas]; exact rcasc
  · rw [hep]; exact repv

theorem applyPlay_nil (b : Board) : applyPlay b [] = .ok b := rfl

theorem applyPlay_cons (b : Board) (u : String) (us : List String) :
    applyPlay b (u :: us) =
      match applyUci b u with
      | .error e => .error e
      | .ok rr => applyPlay rr.1 us := by
  unfold applyPlay
  rw [List.foldlM_cons]
  cases h : applyUci b u <;> simp [h, Except.map, Except.bind, bind]

theorem applyPlay_valid (ms : List String) (b0 b : Board)
    (h : applyPlay b0 ms = .ok b) (hv : ValidBoard b0 = true) :
    ValidBoard b = true := by
  induction ms generalizing b0 with
  | nil =>
    rw [applyPlay_nil] at h
    injection h with h2
    subst h2
    exact hv
  | cons u us ih =>
    rw [applyPlay_cons] at h
    cases hu : applyUci b0 u with
    | error e => rw [hu] at h; cases h
    | ok rr =>
      rw [hu] at h
      exact ih rr.1 h (applyUci_valid b0 u rr hu hv)

theorem playStates_valid (ms : List String) (b0 : Board) (hv : ValidBoard b0 = true) :
    ∀ s ∈ playStates b0 ms, ValidBoard s = true := by
  induction ms generalizing b0 with
  | nil => simp [playStates]
  | cons u us ih =>
    intro s hs
    cases hu : applyUci b0 u with
    | error e => simp only [playStates, hu] at hs; cases hs
    | ok rr =>
      simp only [playStates, hu] at hs
      rcases List.mem_cons.mp hs with rfl | hs2
      · exact applyUci_valid b0 u rr hu hv
      · exact ih rr.1 (applyUci_valid b0 u rr hu hv) s hs2

theorem dGet_dSet (d : List (String × Nat)) (k k' : String) (v : Nat) :
    dGet (dSet d k v) k' 0 = if k' = k then v else dGet d k' 0 := by
  induction d with
  | nil =>
    simp only [dSet, dGet]
    by_cases h : k = k'
    · rw [if_pos h, if_pos h.symm]
    · rw [if_neg h, if_neg (fun hc => h hc.symm)]
  | cons kv rest ih =>
    by_cases hkv : kv.1 = k <;> by_cases h : k' = k <;> by_cases h2 : kv.1 = k' <;>
      simp_all [dSet, dGet]

theorem applyPlay_count (ms : List String) (b0 b : Board)
    (h : applyPlay b0 ms = .ok b) (k : String) :
    dGet b.pos_history k 0 = dGet b0.pos_history k 0 +
      (playStates b0 ms).countP (fun s => posKey s == k) := by
  induction ms generalizing b0 with
  | nil =>
    rw [applyPlay_nil] at h
    injection h with h2
    subst h2
    simp [playStates]
  | cons u us ih =>
    rw [applyPlay_cons] at h
    cases hu : applyUci b0 u with
    | error e => rw [hu] at h; cases h
    | ok rr =>
      rw [hu] at h
      have hih := ih rr.1 h
      simp only [playStates, hu]
      rw [List.countP_cons]
      obtain ⟨mv, hmem, hb1, ht1, hc1, he1, hh1, hph⟩ := applyUci_ok_spec b0 u rr hu
      have hstep : dGet rr.1.pos_history k 0 =
          dGet b0.pos_history k 0 + (if posKey rr.1 == k then 1 else 0) := by
        rw [hph, dGet_dSet]
        by_cases hk : k = posKey rr.1
        · subst hk
          simp
        · rw [if_neg hk]
          have hbeq : (posKey rr.1 == k) = false :=
            beq_eq_false_iff_ne.mpr (fun h2 => hk h2.symm)
          rw [hbeq]
          simp
      rw [hih, hstep]
      omega

theorem playStates_front_moves (ms : List String) (b0 : Board) :
    ∀ s ∈ (b0 :: playStates b0 ms).dropLast, legalMoves s ≠ [] := by
  induction ms generalizing b0 with
  | nil => simp [playStates]
  | cons u us ih =>
    intro s hs
    cases hu : applyUci b0 u with
    | error e =>
      simp only [playStates, hu] at hs
      simp at hs
    | ok rr =>
      simp only [playStates, hu] at hs
      rw [List.dropLast_cons₂] at hs
      rcases List.mem_cons.mp hs with rfl | hs2
      · exact applyUci_legal_ne _ u rr hu
      · exact ih rr.1 s hs2

theorem countP_le_dropLast {α : Type} (l : List α) (p : α → Bool) :
    l.countP p ≤ l.dropLast.countP p + 1 := by
  by_cases h : l = []
  · subst h; simp
  · conv_lhs => rw [← List.dropLast_append_getLast h]
    rw [List.countP_append]
    cases hp : p (l.getLast h) <;> simp [List.countP_cons, hp]


set_option maxRecDepth 100000 in
/-- C5 counterexample: in the eight-ply knight dance from the starting
position, the starting position (identified by its position key) is reached
three times — before ply 1, after ply 4 and after ply 8 — yet `gameResult`
reports the game as not over at every one of the nine states: the claimed
"reached three times implies threefold-repetition draw, no later than the ply
on which the count reaches 3" fails, because the initial position is never
recorded in `pos_history`. -/
theorem C5_counterexample :
    (startBoard :: playStates startBoard dance8).map
        (fun s => ((gameResult s).1, posKey s == posKey startBoard)) =
      [(false, true), (false, false), (false, false), (false, false), (false, true),
       (false, false), (false, false), (false, false), (false, true)] := by
  decide

/-- C5 (amended): for every play from the starting position that succeeds and
ends in board `b`, if the key of `b` occurs at least three times among the
*post-move* states of the play (the recorded occurrences — the initial
position itself is never recorded), and the halfmove clock is below the
50-move threshold, then `gameResult` reports a threefold-repetition draw at
`b` — i.e. exactly on the ply where the recorded count reaches 3. -/
theorem C5_amended_threefold (ms : List String) (b : Board)
    (hb : (applyPlay startBoard ms).toOption = some b)
    (hcount : 3 ≤ (playStates startBoard ms).countP (fun s => posKey s == posKey b))
    (hhm : b.halfmove < 100) :
    gameResult b = (true, "1/2-1/2", "Draw by threefold repetition", none) := by
  have hok : applyPlay startBoard ms = .ok b := by
    cases hx : applyPlay startBoard ms with
    | error e => rw [hx] at hb; simp [Except.toOption] at hb
    | ok b2 => rw [hx] at hb; simp [Except.toOption] at hb; rw [hb]
  have hvs : ValidBoard startBoard = true := by decide
  have hvb : ValidBoard b = true := applyPlay_valid ms startBoard b hok hvs
  have h0 : dGet startBoard.pos_history (posKey b) 0 = 0 := rfl
  have hrec : dGet b.pos_history (posKey b) 0 ≥ 3 := by
    rw [applyPlay_count ms startBoard b hok (posKey b), h0]
    omega
  have hlen : playStates startBoard ms ≠ [] := by
    intro h1; rw [h1] at hcount; simp at hcount
  have hdl := countP_le_dropLast (playStates startBoard ms)
    (fun s => posKey s == posKey b)
  have hpos : 0 < (playStates startBoard ms).dropLast.countP
      (fun s => posKey s == posKey b) := by omega
  obtain ⟨s, hsmem, hskey⟩ := List.countP_pos_iff.mp hpos
  have hsmem2 : s ∈ (startBoard :: playStates startBoard ms).dropLast := by
    rw [List.dropLast_cons_of_ne_nil hlen]
    exact List.mem_cons_of_mem _ hsmem
  have hsne : legalMoves s ≠ [] := playStates_front_moves ms startBoard s hsmem2
  have hsv : ValidBoard s = true :=
    playStates_valid ms startBoard hvs s (List.dropLast_subset _ hsmem)
  have hkeq : posKey s = posKey b := eq_of_beq hskey
  obtain ⟨hb1, ht1, hc1, he1⟩ := loadFen_posKey s hsv
  obtain ⟨hb2, ht2, hc2, he2⟩ := loadFen_posKey b hvb
  rw [hkeq] at hb1 ht1 hc1 he1
  have hbb : s.board = b.board := hb1.symm.trans hb2
  have htt : s.turn = b.turn := ht1.symm.trans ht2
  have hcc : s.castling = b.castling := hc1.symm.trans hc2
  have hee : s.ep = b.ep := he1.symm.trans he2
  have hne : legalMoves b ≠ [] := by
    have hcon : legalMovesT b b.turn = legalMovesT s b.turn :=
      legalMovesT_congr b s b.turn hbb.symm hee.symm hcc.symm htt.symm
    unfold legalMoves
    rw [hcon, ← htt]
    exact hsne
  simp only [gameResult]
  rw [if_neg hne, if_neg (Nat.not_le.mpr hhm), if_pos hrec]

set_option maxRecDepth 100000 in
set_option maxHeartbeats 8000000 in
/-- Witness for C5 (amended): the twelve-ply knight dance records the
starting position's key three times, and `gameResult` at its final state
reports the threefold-repetition draw. -/
theorem C5_amended_witness :
    gameResult dance12Board = (true, "1/2-1/2", "Draw by threefold repetition", none) :=
  C5_amended_threefold dance12 dance12Board (by decide) (by decide) (by decide)


-- ───────────── C10: Elo zero-sum ─────────────

theorem dGetQ_append_left (d l : List (String × ℚ)) (k : String) (v : ℚ)
    (h : dGetQ d k = some v) : dGetQ (d ++ l) k = some v := by
  induction d with
  | nil => simp [dGetQ] at h
  | cons kv rest ih =>
    simp only [List.cons_append, dGetQ] at h ⊢
    by_cases hk : kv.1 = k
    · rw [if_pos hk] at h ⊢; exact h
    · rw [if_neg hk] at h ⊢; exact ih h

theorem dGetQ_append_self (d : List (String × ℚ)) (k : String) (v : ℚ)
    (h : dGetQ d k = none) : dGetQ (d ++ [(k, v)]) k = some v := by
  induction d with
  | nil => simp [dGetQ]
  | cons kv rest ih =>
    simp only [List.cons_append, dGetQ] at h ⊢
    by_cases hk : kv.1 = k
    · rw [if_pos hk] at h; exact absurd h (Option.some_ne_none _)
    · rw [if_neg hk] at h ⊢; exact ih h

theorem setdefaultQ_get (d : List (String × ℚ)) (k : String) (v : ℚ) :
    dGetQ (setdefaultQ d k v).1 k = some (setdefaultQ d k v).2 := by
  cases h : dGetQ d k with
  | some x => simp only [setdefaultQ, h]
  | none => simp only [setdefaultQ, h]; exact dGetQ_append_self d k v h

theorem setdefaultQ_get_other (d : List (String × ℚ)) (k k0 : String) (v v0 : ℚ)
    (h0 : dGetQ d k0 = some v0) : dGetQ (setdefaultQ d k v).1 k0 = some v0 := by
  cases h : dGetQ d k with
  | some x => simp only [setdefaultQ, h]; exact h0
  | none => simp only [setdefaultQ, h]; exact dGetQ_append_left d _ k0 v0 h0

theorem setdefaultQ_sumDiff (start : ℚ) (d : List (String × ℚ)) (k : String) :
    eloSumDiff start (setdefaultQ d k start).1 = eloSumDiff start d := by
  cases h : dGetQ d k with
  | some x => simp only [setdefaultQ, h]
  | none =>
    simp only [setdefaultQ, h, eloSumDiff, List.map_append, List.sum_append,
      List.map_cons, List.map_nil, List.sum_cons, List.sum_nil]
    ring

theorem sumDiff_dSetQ (start : ℚ) (d : List (String × ℚ)) (k : String) (v v0 : ℚ)
    (h : dGetQ d k = some v0) :
    eloSumDiff start (dSetQ d k v) = eloSumDiff start d + (v - v0) := by
  induction d with
  | nil => simp [dGetQ] at h
  | cons kv rest ih =>
    simp only [dGetQ] at h
    by_cases hk : kv.1 = k
    · rw [if_pos hk] at h
      injection h with h2
      simp only [dSetQ, if_pos hk, eloSumDiff, List.map_cons, List.sum_cons]
      rw [h2]
      ring
    · rw [if_neg hk] at h
      simp only [dSetQ, if_neg hk, eloSumDiff, List.map_cons, List.sum_cons]
      have h3 := ih h
      simp only [eloSumDiff] at h3
      rw [h3]
      ring

theorem dGetQ_dSetQ_other (d : List (String × ℚ)) (k k0 : String) (v : ℚ)
    (h : k0 ≠ k) : dGetQ (dSetQ d k v) k0 = dGetQ d k0 := by
  induction d with
  | nil =>
    simp only [dSetQ, dGetQ]
    rw [if_neg (fun hc => h hc.symm)]
  | cons kv rest ih =>
    simp only [dSetQ]
    by_cases hk : kv.1 = k
    · rw [if_pos hk]
      simp only [dGetQ]
      rw [if_neg (fun hc => h hc.symm), if_neg (fun hc : kv.1 = k0 => h (hc.symm.trans hk))]
    · rw [if_neg hk]
      simp only [dGetQ]
      by_cases hk0 : kv.1 = k0
      · rw [if_pos hk0, if_pos hk0]
      · rw [if_neg hk0, if_neg hk0, ih]

theorem eloScores_sum (res : String) (sc : ℚ × ℚ) (h : eloScores res = some sc) :
    sc.1 + sc.2 = 1 := by
  unfold eloScores at h
  repeat' split at h
  all_goals first
    | (injection h with h2; subst h2; norm_num)
    | exact Option.noConfusion h

theorem eloPair_sumDiff (start : ℚ) (d : List (String × ℚ)) (kw kb : String)
    (hne : kw ≠ kb) (vw vb rw0 rb0 : ℚ)
    (hw : dGetQ d kw = some rw0) (hb : dGetQ d kb = some rb0) :
    eloSumDiff start (dSetQ (dSetQ d kw vw) kb vb) =
      eloSumDiff start d + (vw - rw0) + (vb - rb0) := by
  rw [sumDiff_dSetQ start _ kb vb rb0 ((dGetQ_dSetQ_other d kw kb vw (Ne.symm hne)).trans hb),
      sumDiff_dSetQ start d kw vw rw0 hw]

theorem eloStep_sumDiff (nm : String → String) (E : ℚ → ℚ → ℚ) (k start : ℚ)
    (d : List (String × ℚ)) (g : String × String × String)
    (hg : nm (nm g.1) ≠ nm (nm g.2.1)) :
    eloSumDiff start (eloStep nm E k start d g) = eloSumDiff start d := by
  simp only [eloStep]
  cases hsc : eloScores g.2.2 with
  | none => rw [setdefaultQ_sumDiff, setdefaultQ_sumDiff]
  | some sc =>
    have hsum : sc.1 + sc.2 = 1 := eloScores_sum g.2.2 sc hsc
    rw [eloPair_sumDiff start _ _ _ hg _ _
        (setdefaultQ d (nm (nm g.1)) start).2
        (setdefaultQ (setdefaultQ d (nm (nm g.1)) start).1 (nm (nm g.2.1)) start).2
        (setdefaultQ_get_other _ _ _ _ _ (setdefaultQ_get d (nm (nm g.1)) start))
        (setdefaultQ_get _ _ _),
      setdefaultQ_sumDiff, setdefaultQ_sumDiff]
    linear_combination k * hsum

theorem computeElo_foldl_sumDiff (nm : String → String) (E : ℚ → ℚ → ℚ)
    (k start : ℚ) (games : List (String × String × String)) :
    ∀ d, (∀ g ∈ games, nm (nm g.1) ≠ nm (nm g.2.1)) →
      eloSumDiff start (games.foldl (eloStep nm E k start) d) = eloSumDiff start d := by
  induction games with
  | nil => intro d h; rfl
  | cons g gs ih =>
    intro d h
    rw [List.foldl_cons, ih _ (fun g2 hg2 => h g2 (List.mem_cons_of_mem _ hg2)),
        eloStep_sumDiff nm E k start d g (h g (List.mem_cons_self _ _))]

/-- C10 counterexample: the Elo computation is *not* zero-sum on every ordered
game list.  When a game's white and black names coincide (here literally
equal, so under any normalization), `set_r(b, …)` overwrites `set_r(w, …)`
using the stale `rb` read before White's update, and the single engine's
rating drops by `k * (sb - eb) = 32 * (0 - 1/2) = -16`.  The expected-score
function is instantiated at `fun _ _ => 1/2`, which agrees with
`1 / (1 + 10 ** ((rb - rw) / 400))` at the only point it is evaluated
(`rw = rb = 1500`). -/
theorem C10_counterexample :
    eloSumDiff 1500 (computeEloRatings (fun n => n) (fun _ _ => 1/2) 32 1500
      [("X", "X", "1-0")]) = -16 := by
  simp only [computeEloRatings, eloStep, eloScores, setdefaultQ, dGetQ, dSetQ, eloSumDiff,
    List.foldl_cons, List.foldl_nil, List.map_cons, List.map_nil, List.sum_cons, List.sum_nil]
  norm_num

/-- C10 (amended): Elo rating computation is zero-sum provided every game's
two engine names normalize to *different* keys: for every ordered game list
in which no game pairs an engine against itself (under the normalization
`nm`), every expected-score function `E`, every K-factor and every starting
rating, after `compute_elo_ratings` processes all games the sum over all
engines of (unrounded rating minus the starting rating) equals 0 — each
decided game adds `k*(sw - ew)` to White and `k*(sb - eb)` to Black with
`sw + sb = 1` and `eb = 1 - ew`, and games with any other result string
leave the sum unchanged (they only insert fresh entries at the starting
rating). -/
theorem C10_amended_zero_sum (nm : String → String) (E : ℚ → ℚ → ℚ)
    (k start : ℚ) (games : List (String × String × String))
    (h : ∀ g ∈ games, nm (nm g.1) ≠ nm (nm g.2.1)) :
    eloSumDiff start (computeEloRatings nm E k start games) = 0 := by
  unfold computeEloRatings
  rw [computeElo_foldl_sumDiff nm E k start games [] h]
  rfl

/-- Witness for C10 (amended): three games among pairwise-distinct engine
names (one of them aborted) leave the total rating drift at exactly zero. -/
theorem C10_amended_witness :
    eloSumDiff 1500 (computeEloRatings (fun n => n) (fun _ _ => 1/2) 32 1500
      [("A", "B", "1-0"), ("B", "C", "1/2-1/2"), ("C", "A", "x")]) = 0 :=
  C10_amended_zero_sum (fun n => n) (fun _ _ => 1/2) 32 1500
    [("A", "B", "1-0"), ("B", "C", "1/2-1/2"), ("C", "A", "x")] (by decide)


-- ───────────── C7: Swiss pairing completeness ─────────────

theorem pickUnplayed_perm (p1 : TPlayer) (played : String → String → Bool) :
    ∀ (l : List TPlayer) (qr : TPlayer × List TPlayer),
      pickUnplayed p1 played l = some qr → (qr.1 :: qr.2).Perm l := by
  intro l
  induction l with
  | nil => intro qr h; simp [pickUnplayed] at h
  | cons p2 rest ih =>
    intro qr h
    simp only [pickUnplayed] at h
    by_cases hp : played p1.name p2.name
    · rw [if_pos hp] at h
      cases hr : pickUnplayed p1 played rest with
      | none => rw [hr] at h; exact Option.noConfusion h
      | some qr2 =>
        rw [hr] at h
        injection h with h2
        subst h2
        exact (List.Perm.swap p2 qr2.1 qr2.2).trans ((ih qr2 hr).cons p2)
    · rw [if_neg hp] at h
      injection h with h2
      subst h2
      exact List.Perm.refl _

theorem backtrackPair_complete (played : String → String → Bool) :
    ∀ (fuel : Nat) (players : List TPlayer), players.length ≤ fuel →
      players.length % 2 = 0 →
      ∃ out, backtrackPair played fuel players = some out ∧ out.Perm players := by
  intro fuel
  induction fuel with
  | zero =>
    intro players hle hev
    have h0 : players = [] := List.eq_nil_of_length_eq_zero (Nat.le_zero.mp hle)
    subst h0
    exact ⟨[], rfl, List.Perm.refl _⟩
  | succ n ih =>
    intro players hle hev
    rcases players with _ | ⟨p1, rest1⟩
    · exact ⟨[], rfl, List.Perm.refl _⟩
    rcases rest1 with _ | ⟨q, rest2⟩
    · simp at hev
    rcases rest2 with _ | ⟨r, rest⟩
    · exact ⟨[p1, q], rfl, List.Perm.refl _⟩
    have hred : backtrackPair played (n + 1) (p1 :: q :: r :: rest) =
        match pickUnplayed p1 played (q :: r :: rest) with
        | some qr => (backtrackPair played n qr.2).map (fun sub => p1 :: qr.1 :: sub)
        | none => (backtrackPair played n (r :: rest)).map (fun sub => p1 :: q :: sub) := rfl
    simp only [List.length_cons] at hle hev
    cases hp : pickUnplayed p1 played (q :: r :: rest) with
    | some qr =>
      have hperm := pickUnplayed_perm p1 played _ qr hp
      have hql : qr.2.length + 1 = rest.length + 2 := by
        have := hperm.length_eq
        simpa using this
      obtain ⟨sub, hsub, hsubperm⟩ := ih qr.2 (by omega) (by omega)
      refine ⟨p1 :: qr.1 :: sub, ?_, ?_⟩
      · rw [hred, hp]
        dsimp only
        rw [hsub]
        rfl
      · exact ((hsubperm.cons qr.1).trans hperm).cons p1
    | none =>
      obtain ⟨sub, hsub, hsubperm⟩ := ih (r :: rest) (by simp; omega) (by simp; omega)
      refine ⟨p1 :: q :: sub, ?_, ?_⟩
      · rw [hred, hp]
        dsimp only
        rw [hsub]
        rfl
      · exact ((hsubperm.cons q).cons p1)

theorem pairUp_flatten_aux :
    ∀ (n : Nat) (l : List TPlayer), l.length ≤ n → l.length % 2 = 0 →
      (pairUp l).flatMap (fun pq => [pq.1, pq.2]) = l := by
  intro n
  induction n with
  | zero =>
    intro l hle _
    have h0 : l = [] := List.eq_nil_of_length_eq_zero (Nat.le_zero.mp hle)
    subst h0
    rfl
  | succ n ih =>
    intro l hle hev
    rcases l with _ | ⟨p1, rest1⟩
    · rfl
    rcases rest1 with _ | ⟨p2, rest⟩
    · simp at hev
    simp only [List.length_cons] at hle hev
    simp only [pairUp, List.flatMap_cons]
    rw [ih rest (by omega) (by omega)]
    rfl

theorem assignColors_flatten_perm (coin : TPlayer → TPlayer → Bool) :
    ∀ pl : List (TPlayer × TPlayer),
      ((pl.map (fun pq => assignColors coin pq.1 pq.2)).flatMap
          (fun pq => [pq.1, pq.2])).Perm (pl.flatMap (fun pq => [pq.1, pq.2])) := by
  intro pl
  induction pl with
  | nil => exact List.Perm.refl _
  | cons pq rest ih =>
    simp only [List.map_cons, List.flatMap_cons]
    have hc : (assignColors coin pq.1 pq.2 = (pq.1, pq.2)) ∨
        (assignColors coin pq.1 pq.2 = (pq.2, pq.1)) := by
      simp only [assignColors]
      repeat' split
      all_goals simp
    rcases hc with hc | hc <;> rw [hc]
    · exact List.Perm.append (List.Perm.refl _) ih
    · exact List.Perm.append (List.Perm.swap pq.1 pq.2 []) ih

/-- C7: for every even-sized player roster and every set of already-played
pairs — including the extreme case where every pair has already played
(`played` arbitrary, so in particular constantly true) — Swiss pairing
returns `some` (it never fails), produces no bye, and the players appearing
in the returned pairs are exactly the roster (as a multiset): every player
appears in exactly one pair.  The fallback branch of `_backtrack_pair`
repeats a pairing rather than leaving anyone unpaired. -/
theorem C7_swiss_complete (coin : TPlayer → TPlayer → Bool)
    (players : List TPlayer) (played : String → String → Bool)
    (heven : players.length % 2 = 0) :
    ∃ pr, swissPair coin players played = some (pr, none) ∧
      (pr.flatMap (fun pq => [pq.1, pq.2])).Perm players := by
  have hsp : (players.mergeSort swissKeyLe).Perm players := List.mergeSort_perm players _
  have hlen : (players.mergeSort swissKeyLe).length = players.length := hsp.length_eq
  obtain ⟨out, hout, hperm⟩ := backtrackPair_complete played
    (players.mergeSort swissKeyLe).length (players.mergeSort swissKeyLe)
    (le_refl _) (by rw [hlen]; exact heven)
  have houtlen : out.length % 2 = 0 := by
    rw [hperm.length_eq, hlen]; exact heven
  refine ⟨(pairUp out).map (fun pq => assignColors coin pq.1 pq.2), ?_, ?_⟩
  · simp only [swissPair]
    rw [if_neg (by rw [hlen]; omega)]
    simp only [backtrackPairTop]
    rw [hout]
  · have h1 := assignColors_flatten_perm coin (pairUp out)
    rw [pairUp_flatten_aux out.length out (le_refl _) houtlen] at h1
    exact (h1.trans hperm).trans hsp

/-- Witness for C7: four players, every pair already played, are still fully
paired with no bye. -/
theorem C7_witness :
    ∃ pr, swissPair (fun _ _ => true)
        [⟨"A", 0, 0, [], []⟩, ⟨"B", 0, 0, [], []⟩, ⟨"C", 0, 0, [], []⟩,
         ⟨"D", 0, 0, [], []⟩]
        (fun _ _ => true) = some (pr, none) ∧
      (pr.flatMap (fun pq => [pq.1, pq.2])).Perm
        [⟨"A", 0, 0, [], []⟩, ⟨"B", 0, 0, [], []⟩, ⟨"C", 0, 0, [], []⟩,
         ⟨"D", 0, 0, [], []⟩] :=
  C7_swiss_complete (fun _ _ => true) _ (fun _ _ => true) (by decide)


-- ───────────── C6: knockout bracket ─────────────

theorem koPairUp_length (coin : String → String → Bool) :
    ∀ (n : Nat) (l : List String) (m : Nat), l.length ≤ n →
      l.length = 2 * m → (koPairUp coin l).length = m := by
  intro n
  induction n with
  | zero =>
    intro l m hle hlen
    have h0 : l = [] := List.eq_nil_of_length_eq_zero (Nat.le_zero.mp hle)
    subst h0
    have h1 : koPairUp coin [] = [] := rfl
    rw [h1]
    simp only [List.length_nil] at hlen ⊢
    omega
  | succ n ih =>
    intro l m hle hlen
    rcases l with _ | ⟨a, _ | ⟨b, rest⟩⟩
    · have h1 : koPairUp coin [] = [] := rfl
      rw [h1]
      simp only [List.length_nil] at hlen ⊢
      omega
    · have h1 : koPairUp coin [a] = [] := rfl
      simp only [List.length_cons, List.length_nil] at hlen
      omega
    · simp only [List.length_cons] at hle hlen
      simp only [koPairUp, List.length_cons]
      rw [ih rest (m - 1) (by omega) (by omega)]
      omega

theorem koPairUp_mem (coin : String → String → Bool) :
    ∀ (n : Nat) (l : List String) (pq : String × String), l.length ≤ n →
      pq ∈ koPairUp coin l → pq.1 ∈ l ∧ pq.2 ∈ l := by
  intro n
  induction n with
  | zero =>
    intro l pq hle hm
    have h0 : l = [] := List.eq_nil_of_length_eq_zero (Nat.le_zero.mp hle)
    subst h0
    simp [koPairUp] at hm
  | succ n ih =>
    intro l pq hle hm
    rcases l with _ | ⟨a, _ | ⟨b, rest⟩⟩
    · have h1 : koPairUp coin [] = [] := rfl
      rw [h1] at hm
      exact absurd hm (List.not_mem_nil _)
    · have h1 : koPairUp coin [a] = [] := rfl
      rw [h1] at hm
      exact absurd hm (List.not_mem_nil _)
    · simp only [koPairUp] at hm
      simp only [List.length_cons] at hle
      rcases List.mem_cons.mp hm with heq | htl
      · by_cases hc : coin a b
        · rw [if_pos hc] at heq
          subst heq
          exact ⟨List.mem_cons_self _ _, List.mem_cons_of_mem _ (List.mem_cons_self _ _)⟩
        · rw [if_neg hc] at heq
          subst heq
          exact ⟨List.mem_cons_of_mem _ (List.mem_cons_self _ _), List.mem_cons_self _ _⟩
      · obtain ⟨h1, h2⟩ := ih rest pq (by omega) htl
        exact ⟨List.mem_cons_of_mem _ (List.mem_cons_of_mem _ h1),
               List.mem_cons_of_mem _ (List.mem_cons_of_mem _ h2)⟩

theorem koRunAux_pow2 (shuffle : List String → List String)
    (hs : ∀ l, (shuffle l).Perm l) (coin : String → String → Bool)
    (adv : String → String → String) (hadv : ∀ a b, adv a b = a ∨ adv a b = b) :
    ∀ (k fuel : Nat) (pending : List String), k < fuel → pending.length = 2 ^ k →
      ∃ w ∈ pending, koRunAux shuffle coin adv fuel pending = (some w, k) := by
  intro k
  induction k with
  | zero =>
    intro fuel pending hf hlen
    obtain ⟨f, rfl⟩ : ∃ f, fuel = f + 1 := ⟨fuel - 1, by omega⟩
    rw [pow_zero] at hlen
    obtain ⟨w, rfl⟩ := List.length_eq_one.mp hlen
    exact ⟨w, List.mem_cons_self _ _, by simp [koRunAux]⟩
  | succ k ih =>
    intro fuel pending hf hlen
    obtain ⟨f, rfl⟩ : ∃ f, fuel = f + 1 := ⟨fuel - 1, by omega⟩
    have hgt : ¬ pending.length ≤ 1 := by
      rw [hlen]
      have h1 : 2 ^ (k + 1) = 2 * 2 ^ k := by ring
      have h2 : 0 < 2 ^ k := Nat.pos_pow_of_pos _ (by omega)
      omega
    have hsl : (shuffle pending).length = 2 * 2 ^ k := by
      rw [(hs pending).length_eq, hlen]; ring
    have hpl : (koPairUp coin (shuffle pending)).length = 2 ^ k :=
      koPairUp_length coin (shuffle pending).length (shuffle pending) (2 ^ k)
        (le_refl _) hsl
    have hnl : (koWinners adv (koPairUp coin (shuffle pending))).length = 2 ^ k := by
      simp [koWinners, hpl]
    obtain ⟨w, hw, hrec⟩ := ih f (koWinners adv (koPairUp coin (shuffle pending)))
      (by omega) hnl
    refine ⟨w, ?_, ?_⟩
    · simp only [koWinners, List.mem_map] at hw
      obtain ⟨pq, hpq, rfl⟩ := hw
      obtain ⟨h1, h2⟩ := koPairUp_mem coin (shuffle pending).length (shuffle pending) pq
        (le_refl _) hpq
      rcases hadv pq.1 pq.2 with h | h <;> rw [h]
      · exact (hs pending).mem_iff.mp h1
      · exact (hs pending).mem_iff.mp h2
    · simp only [koRunAux, if_neg hgt]
      rw [hrec]

/-- C6 (amended): a 5-player knockout seeds an 8-slot bracket, so round 1
produces exactly *three* byes and one game, and — for every shuffle, every
color draw and every per-game outcome — the tournament finishes with
exactly one winner (a member of the roster) after 3 rounds of games. -/
theorem C6_amended_knockout (players : List String) (h5 : players.length = 5)
    (shuffle : List String → List String) (hs : ∀ l, (shuffle l).Perm l)
    (coin : String → String → Bool) (adv : String → String → String)
    (hadv : ∀ a b, adv a b = a ∨ adv a b = b) :
    (koRound1 players).2.length = 3 ∧ (koRound1 players).1.length = 1 ∧
      ∃ w ∈ players, koRun shuffle coin adv players = (some w, 3) := by
  rcases players with _ | ⟨a, players⟩
  · simp only [List.length_nil] at h5; omega
  rcases players with _ | ⟨b, players⟩
  · simp only [List.length_cons, List.length_nil] at h5; omega
  rcases players with _ | ⟨c, players⟩
  · simp only [List.length_cons, List.length_nil] at h5; omega
  rcases players with _ | ⟨d, players⟩
  · simp only [List.length_cons, List.length_nil] at h5; omega
  rcases players with _ | ⟨e, players⟩
  · simp only [List.length_cons, List.length_nil] at h5; omega
  have hnil : players = [] := by
    simp only [List.length_cons] at h5
    exact List.eq_nil_of_length_eq_zero (by omega)
  subst hnil
  have hsb : seedBracket [a, b, c, d, e] =
      [(some a, none), (some b, none), (some c, none), (some d, some e)] := by
    have hks : koSize ([a, b, c, d, e] : List String).length = 8 := rfl
    simp only [seedBracket, hks]
    norm_num [List.range_succ, List.getD]
  have hr1 : koRound1 [a, b, c, d, e] = ([(d, e)], [a, b, c]) := by
    simp only [koRound1, hsb]
    rfl
  refine ⟨by rw [hr1]; rfl, by rw [hr1]; rfl, ?_⟩
  obtain ⟨w, hw, hrun⟩ := koRunAux_pow2 shuffle hs coin adv hadv 2 4
    [a, b, c, adv d e] (by omega) (by simp)
  refine ⟨w, ?_, ?_⟩
  · rcases hadv d e with h | h <;> rw [h] at hw <;>
      simp only [List.mem_cons, List.not_mem_nil, or_false] at hw ⊢ <;> tauto
  · simp only [koRun, hr1, koWinners, List.map_cons, List.map_nil]
    have hpend : [a, b, c] ++ [adv d e] = [a, b, c, adv d e] := rfl
    rw [hpend]
    have hlen4 : ([a, b, c, adv d e] : List String).length = 4 := rfl
    rw [hlen4, hrun]
    rfl

/-- C6 counterexample: with 5 players, round 1 of the knockout bracket has
*three* byes (players 1–3) and a single game (players 4–5), not exactly one
bye as claimed: `seed_bracket` pads 5 players to a bracket of 8 with three
`None` slots. -/
theorem C6_counterexample :
    (koRound1 ["P1", "P2", "P3", "P4", "P5"]).2 = ["P1", "P2", "P3"] ∧
      (koRound1 ["P1", "P2", "P3", "P4", "P5"]).1 = [("P4", "P5")] := by
  decide

/-- Witness for C6 (amended) at a concrete roster, identity shuffle and
white-always-advances outcomes. -/
theorem C6_witness :
    (koRound1 ["P1", "P2", "P3", "P4", "P5"]).2.length = 3 ∧
      (koRound1 ["P1", "P2", "P3", "P4", "P5"]).1.length = 1 ∧
      ∃ w ∈ ["P1", "P2", "P3", "P4", "P5"],
        koRun (fun l => l) (fun _ _ => true) (fun x _ => x)
          ["P1", "P2", "P3", "P4", "P5"] = (some w, 3) :=
  C6_amended_knockout _ (by decide) _ (fun l => List.Perm.refl l) _ _
    (fun a b => Or.inl rfl)


-- ───────────── C8: controller invariants ─────────────

theorem stepT_finished (s : TState) (op : TOp) (h : s.finished = true) :
    (stepT s op).finished = true := by
  cases op with
  | record i res =>
    simp only [stepT, recordGame]
    cases hg : s.all_games[i]? with
    | none => exact h
    | some g => exact h
  | newRound pairs => exact h
  | finish => rfl

theorem stepT_pairs (s : TState) (op : TOp) (pq : String × String)
    (h : pq ∈ s.played_pairs) : pq ∈ (stepT s op).played_pairs := by
  cases op with
  | record i res =>
    simp only [stepT, recordGame]
    cases hg : s.all_games[i]? with
    | none => exact h
    | some g =>
      simp only [addPair]
      split
      · exact h
      · exact List.mem_append_left _ h
  | newRound pairs => exact h
  | finish => exact h

theorem stepT_game (s : TState) (op : TOp) (i : Nat) (g : TGame)
    (h : s.all_games[i]? = some g) (hop : recordsIdx op i = false) :
    (stepT s op).all_games[i]? = some g := by
  cases op with
  | record j res =>
    simp only [recordsIdx, decide_eq_false_iff_not] at hop
    simp only [stepT, recordGame]
    cases hg : s.all_games[j]? with
    | none => exact h
    | some g2 =>
      simp only []
      rw [List.getElem?_set_ne (fun hc => hop hc)]
      exact h
  | newRound pairs =>
    simp only [stepT, newRound]
    have hlt : i < s.all_games.length := by
      by_contra hge
      rw [List.getElem?_eq_none (by omega)] at h
      exact Option.noConfusion h
    rw [List.getElem?_append, if_pos hlt]
    exact h
  | finish => exact h

/-- C8 (amended): under every sequence of controller operations, the
`finished` flag, once true, stays true; `played_pairs` never loses an
element; and a game's stored result survives every operation *except a
renewed `record_game_result` on that same game* — the missing proviso: the
code overwrites `game.result` unconditionally, so "once set, never
changed" holds only against sequences that do not record into that game
again. -/
theorem C8_amended_invariants (s : TState) (ops : List TOp) :
    (s.finished = true → (runT s ops).finished = true) ∧
    (∀ pq ∈ s.played_pairs, pq ∈ (runT s ops).played_pairs) ∧
    (∀ i g, s.all_games[i]? = some g → ops.all (fun op => !(recordsIdx op i)) = true →
      (runT s ops).all_games[i]? = some g) := by
  induction ops generalizing s with
  | nil => exact ⟨fun h => h, fun pq h => h, fun i g h _ => h⟩
  | cons op rest ih =>
    refine ⟨?_, ?_, ?_⟩
    · intro h
      exact ((ih (stepT s op)).1 (stepT_finished s op h))
    · intro pq h
      exact ((ih (stepT s op)).2.1 pq (stepT_pairs s op pq h))
    · intro i g h hall
      simp only [List.all_cons, Bool.and_eq_true, Bool.not_eq_true'] at hall
      exact ((ih (stepT s op)).2.2 i g (stepT_game s op i g h hall.1) hall.2)

/-- C8 counterexample: recording a result twice for the same game changes
the already-set result — after recording `1-0` the game stores `1-0`, and a
second `record_game_result` call on the very same game overwrites it with
`0-1`.  A set result is therefore not immutable. -/
theorem C8_counterexample :
    (runT ⟨[], [], false⟩
        [TOp.newRound [("A", "B")], TOp.record 0 "1-0"]).all_games[0]? =
      some ⟨"A", "B", some "1-0", "done"⟩ ∧
    (runT ⟨[], [], false⟩
        [TOp.newRound [("A", "B")], TOp.record 0 "1-0",
         TOp.record 0 "0-1"]).all_games[0]? =
      some ⟨"A", "B", some "0-1", "done"⟩ := by
  decide

/-- Witness for C8 (amended): from a state with a finished flag, one
recorded pair and one decided game, a new round plus a finish leave the
flag true, the pair present and the game's result untouched. -/
theorem C8_witness :
    (runT ⟨[⟨"A", "B", some "1-0", "done"⟩], [("A", "B")], true⟩
        [TOp.newRound [("C", "D")], TOp.finish]).finished = true ∧
    ("A", "B") ∈ (runT ⟨[⟨"A", "B", some "1-0", "done"⟩], [("A", "B")], true⟩
        [TOp.newRound [("C", "D")], TOp.finish]).played_pairs ∧
    (runT ⟨[⟨"A", "B", some "1-0", "done"⟩], [("A", "B")], true⟩
        [TOp.newRound [("C", "D")], TOp.finish]).all_games[0]? =
      some ⟨"A", "B", some "1-0", "done"⟩ :=
  ⟨(C8_amended_invariants ⟨[⟨"A", "B", some "1-0", "done"⟩], [("A", "B")], true⟩
      [TOp.newRound [("C", "D")], TOp.finish]).1 rfl,
   (C8_amended_invariants ⟨[⟨"A", "B", some "1-0", "done"⟩], [("A", "B")], true⟩
      [TOp.newRound [("C", "D")], TOp.finish]).2.1 ("A", "B") (by decide),
   (C8_amended_invariants ⟨[⟨"A", "B", some "1-0", "done"⟩], [("A", "B")], true⟩
      [TOp.newRound [("C", "D")], TOp.finish]).2.2 0 ⟨"A", "B", some "1-0", "done"⟩
      (by decide) (by decide)⟩

end Chess
